import Mathlib

/-!
# Verification of the mcts.rs Monte Carlo tree search engine

Shallow embedding of the repository's source files:

* `src/game.rs` — the generic MCTS engine (`uct`, `MoveScore`, `MctsTree`,
  `Mcts::select`, `Mcts::rollout`, `Mcts::backpropagate`,
  `Mcts::best_descendant`, `Mcts::best_move`);
* `src/tictactoe.rs` — the tic-tac-toe game fixture.

Modelling conventions:

* `f32` scores are modelled as `ℚ`.  The transcendental part of the UCT
  formula, `((total_visits as f32).ln() / (visits as f32)).sqrt()`, is kept
  abstract as a parameter `sqrt_ln : ℕ → ℕ → ℚ`, and the exploration
  constant `2f32.sqrt()` as a parameter `c : ℚ`; every structural claim is
  proved for all values of these parameters (and refuted at specific ones).
* `rand::thread_rng` is modelled as an explicit oracle `Rng` (a list of
  naturals) threaded through every random choice, including the random
  draws a `Game` implementation may perform inside `place_move`.
* A Rust `panic!` / `.unwrap()` failure is modelled by returning `none`;
  an iteration that would panic produces no completed run.
-/

/-! ## Random oracle -/

/-- Deterministic oracle standing for `rand::thread_rng()`: a stream of
naturals, consumed one value per random decision. -/
abbrev Rng : Type := List ℕ

/-- Draw the next oracle value (0 once the scripted list is exhausted). -/
def Rng.next (r : Rng) : ℕ × Rng := (r.headD 0, List.tail r)

/-- `SliceRandom::choose`: `None` on an empty slice, otherwise a
uniformly-indexed element; the index is taken from the oracle. -/
def Rng.choose (l : List α) (r : Rng) : Option α × Rng :=
  let (k, r') := r.next
  (if l.length = 0 then none else l.get? (k % l.length), r')

/-- `Iterator::max_by` with Rust semantics: the accumulator is kept only
when strictly greater, so among equally-maximal elements the **last** one
is returned. -/
def rust_max_by (cmp : α → α → Ordering) : List α → Option α
  | [] => none
  | x :: xs => some (xs.foldl (fun acc y => if cmp acc y = .gt then acc else y) x)

/-! ## `MoveScore` (game.rs lines 13-34) -/

/-- Tri-state outcome tag of one move application. -/
inductive MoveScore where
  | Terminal (s : ℚ)
  | NonTerminal (s : ℚ)
  | None
deriving DecidableEq, Repr

/-- `MoveScore::is_terminal`. -/
def MoveScore.is_terminal : MoveScore → Bool
  | .Terminal _ => true
  | _ => false

/-- `MoveScore::score`. -/
def MoveScore.score : MoveScore → ℚ
  | .Terminal s => s
  | .NonTerminal s => s
  | .None => 0

/-! ## UCT scorer (game.rs lines 5-11) -/

/-- Value of the `f32`-valued UCT priority: either `+infinity` or a finite
number. -/
inductive UctVal where
  | inf
  | fin (q : ℚ)
deriving DecidableEq, Repr

/-- `f32::total_cmp` restricted to the values `uct` can produce
(`+infinity` and finite numbers; no NaN arises). -/
def UctVal.total_cmp : UctVal → UctVal → Ordering
  | .inf, .inf => .eq
  | .inf, .fin _ => .gt
  | .fin _, .inf => .lt
  | .fin a, .fin b => compare a b

/-- Specification-side order embedding of `UctVal` into `WithTop ℚ`
(`+infinity` goes to `⊤`); `total_cmp` coincides with `compare` through
it.  Used only to state and prove ordering properties. -/
def UctVal.toW : UctVal → WithTop ℚ
  | .inf => ⊤
  | .fin q => (q : WithTop ℚ)

/-- The UCT priority (game.rs lines 5-11).  `sqrt_ln total visits` stands
for the library computation `((total as f32).ln() / (visits as f32)).sqrt()`. -/
def uct (sqrt_ln : ℕ → ℕ → ℚ) (score : ℚ) (visits total_visits : ℕ) (c : ℚ) : UctVal :=
  if visits = 0 then .inf
  else .fin (score / (visits : ℚ) + c * sqrt_ln total_visits visits)

/-! ## The search tree arena (game.rs lines 50-121) -/

/-- `MctsNode` (game.rs lines 60-65). -/
structure MctsNode (Mv : Type) where
  placement_move : Mv
  score : ℚ
  visits : ℕ
deriving DecidableEq, Repr

/-- `MctsTree` (game.rs lines 67-70): arena of nodes plus, for each node
index, the ordered list of child indices. -/
structure MctsTree (Mv : Type) where
  nodes : List (MctsNode Mv)
  children : List (List ℕ)
deriving DecidableEq, Repr

namespace MctsTree

/-- `MctsTree::new` (game.rs lines 73-78); `d` is `Move::default()`. -/
def new (d : Mv) : MctsTree Mv :=
  { nodes := [{ placement_move := d, score := 0, visits := 0 }], children := [[]] }

/-- `MctsTree::add_child` (game.rs lines 80-90): append a fresh zero-stat
node as a child of `node`; `none` when `node` is out of range. -/
def add_child (t : MctsTree Mv) (node : ℕ) (m : Mv) : Option (MctsTree Mv × ℕ) :=
  if node < t.nodes.length then
    let id := t.nodes.length
    some ({ nodes := t.nodes ++ [{ placement_move := m, score := 0, visits := 0 }],
            children := (t.children.set node (((t.children.get? node).getD []) ++ [id])) ++ [[]] },
          id)
  else none

/-- `MctsTree::children` (game.rs lines 92-94). -/
def childrenOf (t : MctsTree Mv) (node : ℕ) : Option (List ℕ) :=
  t.children.get? node

/-- `MctsTree::node` (game.rs lines 96-98). -/
def node (t : MctsTree Mv) (n : ℕ) : Option (MctsNode Mv) :=
  t.nodes.get? n

end MctsTree

namespace MctsTree

/-- Visit count of node `v` (0 when out of range). Specification-side
measure. -/
def visitsOf (t : MctsTree Mv) (v : ℕ) : ℕ :=
  ((t.nodes.get? v).map (fun n => n.visits)).getD 0

/-- Sum of the visit counts of `v`'s children.  Specification-side
measure. -/
def childVisitSum (t : MctsTree Mv) (v : ℕ) : ℕ :=
  (((t.children.get? v).getD []).map (fun c => t.visitsOf c)).sum

/-- Well-formedness of the arena, maintained by the engine: the root
exists, there are as many child lists as nodes, every child index is in
range and greater than its parent, and no index occurs in two places
among the child lists. -/
def wf (t : MctsTree Mv) : Prop :=
  0 < t.nodes.length ∧
  t.nodes.length = t.children.length ∧
  (∀ p l, t.children.get? p = some l → ∀ c ∈ l, c < t.nodes.length ∧ p < c) ∧
  t.children.flatten.Nodup

/-- `t'` extends `t` without touching `t`'s statistics: nodes are only
appended (with zero visits), child lists only grow, and the child visit
sums of existing nodes are unchanged.  Specification-side relation. -/
def ExtendsFor (t t' : MctsTree Mv) : Prop :=
  t.nodes.length ≤ t'.nodes.length ∧
  (∀ v, v < t.nodes.length → t'.nodes.get? v = t.nodes.get? v) ∧
  (∀ v, t.nodes.length ≤ v → t'.visitsOf v = 0) ∧
  (∀ v, v < t.nodes.length → t'.childVisitSum v = t.childVisitSum v) ∧
  (∀ v, t.nodes.length ≤ v → t'.childVisitSum v = 0) ∧
  (∀ q l, t.children.get? q = some l → ∃ l', t'.children.get? q = some l' ∧ ∀ c ∈ l, c ∈ l')

end MctsTree

/-- The parent-child step relation on traversal entries: the second
entry's node is listed among the children of the first entry's node.
Specification-side relation. -/
def childEdge (t : MctsTree Mv) (a b : ℕ × MoveScore) : Prop :=
  ∃ l, t.children.get? a.1 = some l ∧ b.1 ∈ l

/-- Number of recorded traversals that end at node `v`. -/
def endsAtCount (trs : List (List (ℕ × MoveScore))) (v : ℕ) : ℕ :=
  trs.countP (fun tr => decide ((tr.getLast?.map Prod.fst) = some v))

/-- The engine invariant relating a tree to the traversals that built it:
every recorded node id is in range, and each node's visit count is the
sum of its children's visit counts plus the number of traversals that
ended at the node itself. -/
def EngineInv (t : MctsTree Mv) (trs : List (List (ℕ × MoveScore))) : Prop :=
  (∀ tr ∈ trs, ∀ p ∈ tr, p.1 < t.nodes.length) ∧
  (∀ v, v < t.nodes.length → t.visitsOf v = t.childVisitSum v + endsAtCount trs v)

/-! ## The game contract (game.rs lines 36-48) -/

/-- The `Game` trait.  `place_move` may consume oracle values (Rust games
draw from `thread_rng` internally); a `none` first component models a
returned `Err`.  `score_state` receives the post-move game state (`&self`
after the mutation), the opaque outcome token and the evaluating player. -/
structure GameSpec (St Mv GSt Pl : Type) where
  is_perfect_information : Bool
  possible_moves : St → List Mv
  place_move : St → Mv → Rng → Option (St × GSt) × Rng
  score_state : St → GSt → Pl → MoveScore

/-! ## The MCTS engine (game.rs lines 123-272) -/

namespace Mcts

variable {St Mv GSt Pl : Type} [DecidableEq Mv]

/-- `Mcts::diff_existing_children` (game.rs lines 134-142): collect the
`placement_move` of every existing child whose move is contained in
`truth`, returning `some` when that list is non-empty. -/
def diff_existing_children (t : MctsTree Mv) (existing : List ℕ) (truth : List Mv) :
    Option (List Mv) :=
  let diff := (existing.filterMap (fun n => t.node n)).filterMap
    (fun n => if truth.contains n.placement_move then some n.placement_move else none)
  if 0 < diff.length then some diff else none

/-- The argmax step of selection (game.rs lines 163-169): enumerate the
children's stats, score each with `uct`, and take `max_by` on
`f32::total_cmp`. -/
def select_uct_child (sqrt_ln : ℕ → ℕ → ℚ) (c : ℚ) (t : MctsTree Mv)
    (node_children : List ℕ) (total_visits : ℕ) : Option (ℕ × UctVal × Mv) :=
  let stats := node_children.filterMap (fun n => t.node n)
  rust_max_by (fun a b => UctVal.total_cmp a.2.1 b.2.1)
    (stats.enum.map (fun p =>
      (p.1, uct sqrt_ln p.2.score p.2.visits total_visits c, p.2.placement_move)))

/-- The selection loop of `Mcts::select` (game.rs lines 147-175).  Returns
the traversal, the `pending_move_diff`, and the mutated game state
and oracle at loop exit.  `fuel` bounds the descent; `none` models a panic
or exhausted fuel. -/
def select_loop (G : GameSpec St Mv GSt Pl) (player : Pl) (sqrt_ln : ℕ → ℕ → ℚ) (c : ℚ)
    (t : MctsTree Mv) :
    ℕ → List (ℕ × MoveScore) → St → Rng →
    Option (List (ℕ × MoveScore) × Option (List Mv) × St × Rng)
  | 0, _, _, _ => none
  | fuel + 1, traversal, st, rng =>
    match traversal.getLast? with
    | none => none
    | some (last_id, _) =>
      match t.childrenOf last_id with
      | none => none
      | some node_children =>
        if node_children.length = 0 then some (traversal, none, st, rng)
        else
          match (if G.is_perfect_information then none
                 else diff_existing_children t node_children (G.possible_moves st)) with
          | some diff => some (traversal, some diff, st, rng)
          | none =>
            match t.node last_id with
            | none => none
            | some last_node =>
              match select_uct_child sqrt_ln c t node_children last_node.visits with
              | none => none
              | some (i, _, m) =>
                match node_children.get? i with
                | none => none
                | some sel_id =>
                  let pm := G.place_move st m rng
                  match pm.1 with
                  | none => none
                  | some (st', gs) =>
                    select_loop G player sqrt_ln c t fuel
                      (traversal ++ [(sel_id, G.score_state st' gs player)]) st' pm.2

/-- Expansion half of `Mcts::select` (game.rs lines 178-199): returns the
tree after adding children, the node to descend into, and the oracle. -/
def expand (G : GameSpec St Mv GSt Pl) (t : MctsTree Mv) (selected_node : ℕ)
    (pending : Option (List Mv)) (st : St) (rng : Rng) :
    Option (MctsTree Mv × ℕ × Rng) :=
  match pending with
  | some diff =>
    let step := diff.foldl (fun (acc : MctsTree Mv × List ℕ) m =>
      match acc.1.add_child selected_node m with
      | some (t', id) => (t', acc.2 ++ [id])
      | none => (acc.1, acc.2)) (t, [])
    let ch := Rng.choose step.2 rng
    match ch.1 with
    | none => none
    | some next_id => some (step.1, next_id, ch.2)
  | none =>
    let t1 := (G.possible_moves st).foldl (fun tt m =>
      match tt.add_child selected_node m with
      | some (t', _) => t'
      | none => tt) t
    match t1.childrenOf selected_node with
    | none => none
    | some chl =>
      let ch := Rng.choose chl rng
      match ch.1 with
      | none => none
      | some next_id => some (t1, next_id, ch.2)

/-- `Mcts::select` (game.rs lines 144-206): run the selection loop, exit
early on a terminal outcome, otherwise expand and descend into one new
(or newly-listed) child, applying its move. -/
def select (G : GameSpec St Mv GSt Pl) (player : Pl) (sqrt_ln : ℕ → ℕ → ℚ) (c : ℚ)
    (t : MctsTree Mv) (st : St) (rng : Rng) (fuel : ℕ) :
    Option (List (ℕ × MoveScore) × MctsTree Mv × St × Rng) :=
  match select_loop G player sqrt_ln c t fuel [(0, MoveScore.None)] st rng with
  | none => none
  | some (traversal, pending, st1, rng1) =>
    match traversal.getLast? with
    | none => none
    | some (selected_node, last_score) =>
      if last_score.is_terminal then some (traversal, t, st1, rng1)
      else
        match expand G t selected_node pending st1 rng1 with
        | none => none
        | some (t1, next_id, rng2) =>
          match t1.node next_id with
          | none => none
          | some nd =>
            let pm := G.place_move st1 nd.placement_move rng2
            match pm.1 with
            | none => none
            | some (st2, gs) =>
              some (traversal ++ [(next_id, G.score_state st2 gs player)], t1, st2, pm.2)

/-- `Mcts::rollout` (game.rs lines 209-220): play uniformly random legal
moves, accumulating each outcome's score, until a terminal tag. -/
def rollout (G : GameSpec St Mv GSt Pl) (player : Pl) :
    ℕ → St → Rng → ℚ → Option (ℚ × St × Rng)
  | 0, _, _, _ => none
  | fuel + 1, st, rng, acc =>
    let ch := Rng.choose (G.possible_moves st) rng
    match ch.1 with
    | none => none
    | some m =>
      let pm := G.place_move st m ch.2
      match pm.1 with
      | none => none
      | some (st', gs) =>
        let sc := G.score_state st' gs player
        let acc' := acc + sc.score
        if sc.is_terminal then some (acc', st', pm.2)
        else rollout G player fuel st' pm.2 acc'

/-- Body of `Mcts::backpropagate` (game.rs lines 222-230), recursing over
the traversal already reversed: add the outcome's score to the
accumulator, then bump the node's visits by 1 and its score by the
updated accumulator. -/
def backprop_aux (nodes : List (MctsNode Mv)) :
    List (ℕ × MoveScore) → ℚ → List (MctsNode Mv)
  | [], _ => nodes
  | (id, ms) :: rest, acc =>
    let acc' := acc + ms.score
    let nodes' := match nodes.get? id with
      | some n => nodes.set id { n with visits := n.visits + 1, score := n.score + acc' }
      | none => nodes
    backprop_aux nodes' rest acc'

/-- `Mcts::backpropagate` (game.rs lines 222-230): walk the traversal in
reverse with the accumulator initialised to the rollout score. -/
def backpropagate (t : MctsTree Mv) (traversal : List (ℕ × MoveScore))
    (rollout_score : ℚ) : MctsTree Mv :=
  { t with nodes := backprop_aux t.nodes traversal.reverse rollout_score }

/-- One iteration of the loop in `Mcts::best_move` (game.rs lines 243-259):
clone the base position, select-and-expand, roll out unless terminal,
backpropagate.  Also returns the traversal, which the Rust code holds in
the local `selected` variable. -/
def iterate (G : GameSpec St Mv GSt Pl) (player : Pl) (sqrt_ln : ℕ → ℕ → ℚ) (c : ℚ)
    (fuel : ℕ) (base : St) (t : MctsTree Mv) (rng : Rng) :
    Option (MctsTree Mv × Rng × List (ℕ × MoveScore)) :=
  match select G player sqrt_ln c t base rng fuel with
  | none => none
  | some (traversal, t1, st, rng1) =>
    match traversal.getLast? with
    | none => none
    | some (_, last_score) =>
      if last_score.is_terminal then
        some (backpropagate t1 traversal 0, rng1, traversal)
      else
        match rollout G player fuel st rng1 0 with
        | none => none
        | some (rsc, _, rng2) => some (backpropagate t1 traversal rsc, rng2, traversal)

/-- The iteration loop of `Mcts::best_move`, additionally recording each
iteration's traversal (specification ghost data; the Rust loop discards
`selected` after backpropagation). -/
def run_trace (G : GameSpec St Mv GSt Pl) (player : Pl) (sqrt_ln : ℕ → ℕ → ℚ) (c : ℚ)
    (fuel : ℕ) (base : St) :
    ℕ → MctsTree Mv → Rng → List (List (ℕ × MoveScore)) →
    Option (MctsTree Mv × Rng × List (List (ℕ × MoveScore)))
  | 0, t, rng, trs => some (t, rng, trs)
  | n + 1, t, rng, trs =>
    match iterate G player sqrt_ln c fuel base t rng with
    | none => none
    | some (t', rng', tr) => run_trace G player sqrt_ln c fuel base n t' rng' (trs ++ [tr])

/-- `Mcts::best_descendant` (game.rs lines 233-240): among the root's
direct children, `max_by` on the visit count viewed as an `f32`. -/
def best_descendant (t : MctsTree Mv) : Option (MctsNode Mv × ℚ) :=
  match t.childrenOf 0 with
  | none => none
  | some ch =>
    rust_max_by (fun a b => compare a.2 b.2)
      ((ch.filterMap (fun n => t.node n)).map (fun n => (n, (n.visits : ℚ))))

/-- `Mcts::best_move` (game.rs lines 242-267): run the iteration budget,
then extract `best_descendant`'s move. -/
def best_move (G : GameSpec St Mv GSt Pl) (player : Pl) (sqrt_ln : ℕ → ℕ → ℚ) (c : ℚ)
    (fuel : ℕ) (base : St) (t : MctsTree Mv) (iterations : ℕ) (rng : Rng) : Option Mv :=
  match run_trace G player sqrt_ln c fuel base iterations t rng [] with
  | none => none
  | some (t', _, _) =>
    match best_descendant t' with
    | none => none
    | some (nd, _) => some nd.placement_move

end Mcts

/-! ## TicTacToe (tictactoe.rs) -/

/-- `WinState` (tictactoe.rs lines 5-11). -/
inductive WinState where
  | Win
  | Draw
  | Continue
deriving DecidableEq, Repr

/-- The `TicTacToe` game state (tictactoe.rs lines 13-18).  The Rust
`[Option<bool>; 9]` board is a list of nine cells. -/
structure TicTacToe where
  board : List (Option Bool)
  first_player_turn : Bool
  game_ended : Bool
deriving DecidableEq, Repr

namespace TicTacToe

/-- `TicTacToe::new` (tictactoe.rs lines 21-27). -/
def new : TicTacToe :=
  { board := List.replicate 9 none, first_player_turn := true, game_ended := false }

/-- `TicTacToe::next_player` (tictactoe.rs lines 29-31). -/
def next_player (g : TicTacToe) : TicTacToe :=
  { g with first_player_turn := !g.first_player_turn }

/-- The cell-scoring closure in `end_state`: `a.map_or(0, |m| if m { 1 } else { -1 })`. -/
def cell_score : Option Bool → ℤ
  | some m => if m then 1 else -1
  | none => 0

/-- Score of board position `p` (the Rust code indexes `self.board[p]`
with in-range constants). -/
def score_at (g : TicTacToe) (p : ℕ) : ℤ :=
  cell_score ((g.board.get? p).getD none)

/-- `TicTacToe::possible_moves` (tictactoe.rs lines 87-92): indices of
empty cells. -/
def possible_moves (g : TicTacToe) : List ℕ :=
  g.board.enum.filterMap (fun p => if p.2 = none then some p.1 else none)

/-- `TicTacToe::end_state` (tictactoe.rs lines 33-66): diagonals first,
then rows and columns, then the draw check. -/
def end_state (g : TicTacToe) : WinState :=
  let diag1 := g.score_at 0 + g.score_at 4 + g.score_at 8
  let diag2 := g.score_at 2 + g.score_at 4 + g.score_at 6
  if diag1.natAbs = 3 ∨ diag2.natAbs = 3 then .Win
  else
    let h := fun a => g.score_at (a * 3) + g.score_at (a * 3 + 1) + g.score_at (a * 3 + 2)
    let v := fun a => g.score_at a + g.score_at (3 + a) + g.score_at (6 + a)
    if (h 0).natAbs = 3 ∨ (h 1).natAbs = 3 ∨ (h 2).natAbs = 3 ∨
       (v 0).natAbs = 3 ∨ (v 1).natAbs = 3 ∨ (v 2).natAbs = 3 then .Win
    else if g.possible_moves.length = 0 then .Draw
    else .Continue

/-- `TicTacToe::place_move` (tictactoe.rs lines 94-117).  The Rust method
mutates `&mut self` and returns `Result<WinState>`; modelled as the pair
of the post-call state and the result (`Except.error` for `Err`). -/
def place_move (g : TicTacToe) (movement : ℕ) : TicTacToe × Except String WinState :=
  if g.game_ended then (g, .error "game has ended")
  else
    match g.board.get? movement with
    | none => (g, .error "invalid position provided")
    | some p =>
      if p.isSome then (g, .error "move already exists at position")
      else
        let g1 := { g with board := g.board.set movement (some g.first_player_turn) }
        let es := g1.end_state
        if es = .Continue then (g1.next_player, .ok .Continue)
        else ({ g1 with game_ended := true }, .ok es)

end TicTacToe

/-! ## Concrete fixtures

Small concrete `GameSpec` instances and tree states used to evaluate the
engine on specific inputs.  Each is a legitimate implementation of the
`Game` contract of game.rs lines 36-48. -/

/-- A degenerate model of the float computation `sqrt(ln total / visits)`:
the constant 0.  Used only in concrete evaluations where the relevant
priorities are `+infinity` and hence independent of this value. -/
def sqrt_ln_zero : ℕ → ℕ → ℚ := fun _ _ => 0

/-- Perfect-information game with two legal first moves, each immediately
terminal with score 1.  The state is the list of moves played. -/
def gameTwo : GameSpec (List ℕ) ℕ MoveScore Unit :=
  { is_perfect_information := true
    possible_moves := fun s => if s = [] then [0, 1] else []
    place_move := fun s m rng => (some (s ++ [m], MoveScore.Terminal 1), rng)
    score_state := fun _ gs _ => gs }

/-- Perfect-information game with three legal first moves, each
immediately terminal with score 1. -/
def gameThree : GameSpec (List ℕ) ℕ MoveScore Unit :=
  { is_perfect_information := true
    possible_moves := fun s => if s = [] then [0, 1, 2] else []
    place_move := fun s m rng => (some (s ++ [m], MoveScore.Terminal 1), rng)
    score_state := fun _ gs _ => gs }

/-- Perfect-information game whose single move is always legal and whose
outcome tag is drawn from the game's own randomness (as the `Game`
contract permits): `NonTerminal 0` when the next oracle value is 0,
`Terminal 1` otherwise.  The state counts the moves played. -/
def gameCoin : GameSpec ℕ ℕ MoveScore Unit :=
  { is_perfect_information := true
    possible_moves := fun _ => [0]
    place_move := fun n _ rng =>
      (some (n + 1,
        if rng.next.1 = 0 then MoveScore.NonTerminal 0 else MoveScore.Terminal 1),
       rng.next.2)
    score_state := fun _ gs _ => gs }

/-- Deterministic perfect-information chain game: a single legal move at
depths 0, 1, 2; the third move ends the game with score 1. -/
def gameChain : GameSpec ℕ ℕ MoveScore Unit :=
  { is_perfect_information := true
    possible_moves := fun n => if n < 3 then [0] else []
    place_move := fun n _ rng =>
      (some (n + 1, if n + 1 = 3 then MoveScore.Terminal 1 else MoveScore.NonTerminal 0), rng)
    score_state := fun _ gs _ => gs }

/-- A tree whose root has one child (index 1) carrying move 0 with
accumulated statistics, as produced by earlier search iterations. -/
def treeOneChild : MctsTree ℕ :=
  { nodes := [{ placement_move := 99, score := 0, visits := 0 },
              { placement_move := 0, score := 5, visits := 3 }],
    children := [[1], []] }

/-- Two iterations of the engine on `gameTwo` from a fresh tree, with the
expansion in the first iteration choosing the first child. -/
def runTwo : Option (MctsTree ℕ × Rng × List (List (ℕ × MoveScore))) :=
  Mcts.run_trace gameTwo () sqrt_ln_zero 1 10 [] 2 (MctsTree.new 99) [0] []

/-- One iteration of the engine on `gameThree` from a fresh tree: the
three root moves are expanded and the first is visited. -/
def runThree : Option (MctsTree ℕ × Rng × List (List (ℕ × MoveScore))) :=
  Mcts.run_trace gameThree () sqrt_ln_zero 1 10 [] 1 (MctsTree.new 99) [0] []

/-- Two iterations of the engine on `gameCoin` from a fresh tree: the
scripted oracle makes both iterations non-terminal, producing the chain
root → node 1 → node 2, and leaves `[1, 0, 0, 0]` for the next
iteration, whose first move application will be tagged `Terminal`. -/
def runCoin : Option (MctsTree ℕ × Rng × List (List (ℕ × MoveScore))) :=
  Mcts.run_trace gameCoin () sqrt_ln_zero 1 10 0 2 (MctsTree.new 99)
    [0, 0, 0, 1, 0, 0, 0, 0, 0, 0, 1, 1, 0, 0, 0] []

/-- Two iterations of the engine on the deterministic `gameChain` from a
fresh tree. -/
def runChain : Option (MctsTree ℕ × Rng × List (List (ℕ × MoveScore))) :=
  Mcts.run_trace gameChain () sqrt_ln_zero 1 10 0 2 (MctsTree.new 99) [] []

/-- The concrete outcome of `runChain`, with a default for the `none`
case that is never taken. -/
def chainOut : MctsTree ℕ × Rng × List (List (ℕ × MoveScore)) :=
  runChain.getD (MctsTree.new 99, [], [])

/-- The tree `gameTwo` produces after one completed iteration in which
the expansion visited the first child: the second child is unvisited, so
the next selection descends into it and meets a terminal outcome. -/
def treeTwoAfterOne : MctsTree ℕ :=
  { nodes := [{ placement_move := 99, score := 1, visits := 1 },
              { placement_move := 0, score := 1, visits := 1 },
              { placement_move := 1, score := 0, visits := 0 }],
    children := [[1, 2], [], []] }

/-- The five-move tic-tac-toe scenario of the specification: A plays 4,
B plays 0, A plays 8, B plays 2, and the result of A playing 6. -/
def tttScenario : TicTacToe × Except String WinState :=
  let s1 := (TicTacToe.new.place_move 4).1
  let s2 := (s1.place_move 0).1
  let s3 := (s2.place_move 8).1
  let s4 := (s3.place_move 2).1
  s4.place_move 6

/-- A finished tic-tac-toe game state (used to exercise the
post-termination error path). -/
def tttEnded : TicTacToe :=
  { board := List.replicate 9 none, first_player_turn := true, game_ended := true }

/-! ## Helper lemmas -/

/-- Membership in `TicTacToe::possible_moves` is exactly "the index is an
empty in-range cell". -/
theorem TicTacToe.mem_possible_moves (g : TicTacToe) (m : ℕ) :
    m ∈ g.possible_moves ↔ g.board.get? m = some none := by
  unfold TicTacToe.possible_moves
  simp only [List.mem_filterMap]
  constructor
  · rintro ⟨⟨i, t⟩, hmem, hf⟩
    cases t with
    | some b => simp at hf
    | none =>
      simp at hf
      subst hf
      rw [List.mk_mem_enum_iff_getElem?] at hmem
      rw [List.get?_eq_getElem?]
      exact hmem
  · intro hm
    refine ⟨(m, none), ?_, by simp⟩
    rw [List.mk_mem_enum_iff_getElem?, ← List.get?_eq_getElem?, hm]

/-! ## Claims -/

/-- C1: at a node whose single existing child carries move 0, with
currently-legal moves `[0, 1]`, `diff_existing_children` reports the
*already-represented* move `[0]` — not the missing move `[1]` — and with
legal moves `[1]` (so move 1 is legal but unrepresented) it reports no
mismatch at all.  This is the concrete divergence underlying the C1
code-bug verdict: the code computes the intersection of the children's
moves with the legal set instead of the legal moves missing from the
children. -/
theorem C1_diff_keeps_present_moves :
    Mcts.diff_existing_children treeOneChild [1] [0, 1] = some [0] ∧
    Mcts.diff_existing_children treeOneChild [1] [1] = none := ⟨rfl, rfl⟩

/-- C4: the UCT priority is `+infinity` exactly when `visits = 0`, and
otherwise equals `score / visits + c * sqrt(ln total_visits / visits)`
(with the transcendental part abstracted as `sqrt_ln`); consequently a
never-visited child always has priority `+infinity`. -/
theorem C4_uct_infinity_iff_unvisited (sqrt_ln : ℕ → ℕ → ℚ) (score : ℚ)
    (visits total_visits : ℕ) (c : ℚ) :
    (uct sqrt_ln score visits total_visits c = UctVal.inf ↔ visits = 0) ∧
    (visits ≠ 0 → uct sqrt_ln score visits total_visits c
        = UctVal.fin (score / (visits : ℚ) + c * sqrt_ln total_visits visits)) := by
  unfold uct
  by_cases h : visits = 0 <;> simp [h]

/-- C4 witness: evaluation at concrete inputs. -/
theorem C4_uct_witness :
    uct sqrt_ln_zero 3 0 5 2 = UctVal.inf ∧ uct sqrt_ln_zero 3 1 5 2 = UctVal.fin 3 := by
  constructor
  · exact (C4_uct_infinity_iff_unvisited sqrt_ln_zero 3 0 5 2).1.mpr rfl
  · have h := (C4_uct_infinity_iff_unvisited sqrt_ln_zero 3 1 5 2).2 one_ne_zero
    rw [h]; norm_num [sqrt_ln_zero]

/-- C8: `place_move` on an ended game always fails with the
game-already-ended error; `place_move` on a live game with a position
absent from `possible_moves` fails with one of the two invalid-move
errors (out-of-range or occupied); and it succeeds exactly when the game
has not ended and the position is currently legal. -/
theorem C8_place_move_error_conditions (g : TicTacToe) (m : ℕ) :
    (g.game_ended = true → (g.place_move m).2 = .error "game has ended") ∧
    (g.game_ended = false → m ∉ g.possible_moves →
      (g.place_move m).2 = .error "invalid position provided" ∨
      (g.place_move m).2 = .error "move already exists at position") ∧
    ((∃ w, (g.place_move m).2 = .ok w) ↔ g.game_ended = false ∧ m ∈ g.possible_moves) := by
  refine ⟨fun hg => by simp [TicTacToe.place_move, hg], ?_, ?_⟩
  · intro hg hm
    rw [TicTacToe.mem_possible_moves] at hm
    unfold TicTacToe.place_move
    simp only [hg, Bool.false_eq_true, if_false]
    cases hb : g.board.get? m with
    | none => left; simp
    | some p =>
      cases p with
      | some b => right; simp
      | none => exact absurd hb hm
  · rw [TicTacToe.mem_possible_moves]
    unfold TicTacToe.place_move
    by_cases hg : g.game_ended
    · simp [hg]
    · simp only [hg, Bool.false_eq_true, if_false]
      cases hb : g.board.get? m with
      | none => simp
      | some p =>
        cases p with
        | some b => simp
        | none =>
          simp only [Option.isSome_none, Bool.false_eq_true, if_false]
          constructor
          · intro _
            exact ⟨trivial, trivial⟩
          · intro _
            split_ifs <;> exact ⟨_, rfl⟩

/-- C8 witness: the three branches at concrete inputs. -/
theorem C8_place_move_witness :
    (tttEnded.place_move 0).2 = .error "game has ended" ∧
    ((TicTacToe.new.place_move 9).2 = .error "invalid position provided" ∨
     (TicTacToe.new.place_move 9).2 = .error "move already exists at position") ∧
    (∃ w, (TicTacToe.new.place_move 4).2 = .ok w) :=
  ⟨(C8_place_move_error_conditions tttEnded 0).1 rfl,
   (C8_place_move_error_conditions TicTacToe.new 9).2.1 rfl (by decide),
   ((C8_place_move_error_conditions TicTacToe.new 4).2.2).mpr ⟨rfl, by decide⟩⟩

/-- C9 counterexample: after A:4, B:0, A:8, B:2, the fifth application
(A playing 6) returns `Continue`, not a terminal `Win` — A holds only
cells 4, 8 and 6, which complete no line, so the claimed 0-4-8 diagonal
win never happens. -/
theorem C9_fifth_move_not_a_win : tttScenario.2 = Except.ok WinState.Continue := rfl

/-- C9 amended: starting from the empty board, the applications at
4, 0, 8, 2, 6 (players alternating A then B) all succeed, but the fifth
yields `Continue` — no terminal outcome — and the game is not ended. -/
theorem C9_sequence_succeeds_and_continues :
    (TicTacToe.new.place_move 4).2 = .ok .Continue ∧
    ((TicTacToe.new.place_move 4).1.place_move 0).2 = .ok .Continue ∧
    (((TicTacToe.new.place_move 4).1.place_move 0).1.place_move 8).2 = .ok .Continue ∧
    ((((TicTacToe.new.place_move 4).1.place_move 0).1.place_move 8).1.place_move 2).2
      = .ok .Continue ∧
    tttScenario.2 = .ok .Continue ∧
    tttScenario.1.game_ended = false :=
  ⟨rfl, rfl, rfl, rfl, rfl, rfl⟩

/-- C10: whenever `place_move` returns an error, the game state is
completely unchanged (board, player-to-move flag and game-ended flag). -/
theorem C10_place_move_error_atomic (g : TicTacToe) (m : ℕ) (e : String)
    (h : (g.place_move m).2 = .error e) : (g.place_move m).1 = g := by
  unfold TicTacToe.place_move at h ⊢
  by_cases hg : g.game_ended
  · simp [hg]
  · simp only [hg, Bool.false_eq_true, if_false] at h ⊢
    cases hb : g.board.get? m with
    | none => simp [hb]
    | some p =>
      simp only [hb] at h ⊢
      cases p with
      | some b => simp
      | none =>
        simp only [Option.isSome_none, Bool.false_eq_true, if_false] at h ⊢
        split_ifs at h

/-- C10 witness: an error on an ended game leaves the state unchanged. -/
theorem C10_atomic_witness : (tttEnded.place_move 0).1 = tttEnded :=
  C10_place_move_error_atomic tttEnded 0 "game has ended" rfl

namespace Mcts

variable {Mv : Type}

/-- `backprop_aux` preserves the length of the node arena. -/
theorem backprop_aux_length (nodes : List (MctsNode Mv)) (L : List (ℕ × MoveScore)) (a : ℚ) :
    (backprop_aux nodes L a).length = nodes.length := by
  induction L generalizing nodes a with
  | nil => rfl
  | cons x rest ih =>
    obtain ⟨id, ms⟩ := x
    simp only [backprop_aux]
    rw [ih]
    cases h : nodes.get? id with
    | none => rfl
    | some n => simp

/-- `backprop_aux` over an appended list: process the first part, then the
second with the accumulator advanced by the first part's scores. -/
theorem backprop_aux_append (nodes : List (MctsNode Mv)) (L1 L2 : List (ℕ × MoveScore)) (a : ℚ) :
    backprop_aux nodes (L1 ++ L2) a
      = backprop_aux (backprop_aux nodes L1 a) L2 (a + (L1.map (fun p => p.2.score)).sum) := by
  induction L1 generalizing nodes a with
  | nil => simp [backprop_aux]
  | cons x rest ih =>
    obtain ⟨id, ms⟩ := x
    simp only [List.cons_append, backprop_aux, List.map_cons, List.sum_cons, List.append_eq]
    rw [ih, add_assoc]

/-- Nodes whose index is not on the processed list are untouched by
`backprop_aux`. -/
theorem backprop_aux_get_not_mem (nodes : List (MctsNode Mv)) (L : List (ℕ × MoveScore))
    (a : ℚ) (v : ℕ) (hv : ∀ p ∈ L, p.1 ≠ v) :
    (backprop_aux nodes L a).get? v = nodes.get? v := by
  induction L generalizing nodes a with
  | nil => rfl
  | cons x rest ih =>
    obtain ⟨id, ms⟩ := x
    simp only [backprop_aux]
    rw [ih _ _ (fun p hp => hv p (List.mem_cons_of_mem _ hp))]
    cases h : nodes.get? id with
    | none => rfl
    | some n =>
      exact List.get?_set_ne _ _ (hv (id, ms) (List.mem_cons_self _ _))

end Mcts

/-- C2: backpropagation walks the traversal in reverse with an
accumulator initialised to the rollout contribution `R`; the node at
position `i` of the traversal (root-to-leaf order, distinct node ids)
has its visits incremented by exactly 1 and its score incremented by
`R` plus the sum of the step scores from position `i` to the leaf — so
the leaf gains `R + s_k` and the root gains `R + s_1 + ... + s_k`. -/
theorem C2_backpropagate_path_credit {Mv : Type} (t : MctsTree Mv)
    (tr : List (ℕ × MoveScore)) (R : ℚ)
    (hnd : (tr.map Prod.fst).Nodup) (i : ℕ) (hi : i < tr.length) (nd : MctsNode Mv)
    (hget : t.nodes.get? (tr.get ⟨i, hi⟩).1 = some nd) :
    (Mcts.backpropagate t tr R).nodes.get? (tr.get ⟨i, hi⟩).1
      = some { placement_move := nd.placement_move,
               score := nd.score + (R + ((tr.drop i).map (fun p => p.2.score)).sum),
               visits := nd.visits + 1 } := by
  induction tr generalizing t i with
  | nil => simp at hi
  | cons x rest ih =>
    obtain ⟨id0, ms0⟩ := x
    have hrev : ((id0, ms0) :: rest).reverse = rest.reverse ++ [(id0, ms0)] := by simp
    simp only [List.map_cons, List.nodup_cons] at hnd
    have hid0 : ∀ p ∈ rest, p.1 ≠ id0 := by
      intro p hp hpe
      exact hnd.1 (hpe ▸ List.mem_map_of_mem Prod.fst hp)
    show (Mcts.backprop_aux t.nodes ((id0, ms0) :: rest).reverse R).get? _ = _
    rw [hrev, Mcts.backprop_aux_append]
    cases i with
    | zero =>
      simp only [List.get] at hget ⊢
      simp only [Mcts.backprop_aux]
      have hpre : (Mcts.backprop_aux t.nodes rest.reverse R).get? id0 = t.nodes.get? id0 :=
        Mcts.backprop_aux_get_not_mem _ _ _ _ (fun p hp => hid0 p (List.mem_reverse.mp hp))
      rw [hpre, hget]
      have hlt : id0 < (Mcts.backprop_aux t.nodes rest.reverse R).length := by
        rw [Mcts.backprop_aux_length]
        exact (List.get?_eq_some.mp hget).1
      rw [List.get?_set_eq_of_lt _ hlt]
      simp only [Option.some.injEq, MctsNode.mk.injEq, List.map_reverse, List.sum_reverse,
        List.drop_zero, List.map_cons, List.sum_cons]
      refine ⟨trivial, ?_, trivial⟩
      ring
    | succ j =>
      have hj : j < rest.length := by simpa using hi
      have hgetr : (((id0, ms0) :: rest).get ⟨j + 1, hi⟩) = rest.get ⟨j, hj⟩ := rfl
      rw [hgetr] at hget ⊢
      have htgt : (rest.get ⟨j, hj⟩).1 ≠ id0 :=
        hid0 _ (List.get_mem rest j hj)
      simp only [Mcts.backprop_aux]
      have step : ∀ (big : List (MctsNode Mv)) (acc : ℚ),
          (match big.get? id0 with
           | some n => big.set id0 (MctsNode.mk n.placement_move (n.score + acc) (n.visits + 1))
           | none => big).get? (rest.get ⟨j, hj⟩).1 = big.get? (rest.get ⟨j, hj⟩).1 := by
        intro big acc
        cases h : big.get? id0 with
        | none => rfl
        | some n =>
          exact List.get?_set_ne _ _ (fun hh => htgt hh.symm)
      rw [step]
      simp only [List.drop_succ_cons]
      exact ih t hnd.2 j hj hget

/-- C2 witness: the theorem applied to a concrete tree and traversal. -/
theorem C2_backpropagate_witness :
    (Mcts.backpropagate treeOneChild
        [(0, MoveScore.NonTerminal 2), (1, MoveScore.Terminal 3)] 5).nodes.get? 0
      = some { placement_move := 99,
               score := (0 : ℚ) + (5 + ((([(0, MoveScore.NonTerminal 2),
                   (1, MoveScore.Terminal 3)] : List (ℕ × MoveScore)).drop 0).map
                   (fun p => p.2.score)).sum),
               visits := 0 + 1 } :=
  C2_backpropagate_path_credit treeOneChild
    [(0, MoveScore.NonTerminal 2), (1, MoveScore.Terminal 3)] 5 (by decide) 0 (by decide)
    { placement_move := 99, score := 0, visits := 0 } rfl

/-- `total_cmp` is `compare` through the embedding into `WithTop ℚ`. -/
theorem UctVal.total_cmp_eq_compare (u v : UctVal) : u.total_cmp v = compare u.toW v.toW := by
  cases u with
  | inf =>
    cases v with
    | inf => exact (compare_eq_iff_eq.mpr rfl).symm
    | fin q => exact (compare_gt_iff_gt.mpr (WithTop.coe_lt_top q)).symm
  | fin a =>
    cases v with
    | inf => exact (compare_lt_iff_lt.mpr (WithTop.coe_lt_top a)).symm
    | fin b =>
      show compare a b = compare (a : WithTop ℚ) (b : WithTop ℚ)
      rcases lt_trichotomy a b with h | h | h
      · rw [compare_lt_iff_lt.mpr h, compare_lt_iff_lt.mpr (WithTop.coe_lt_coe.mpr h)]
      · rw [h, compare_eq_iff_eq.mpr rfl, compare_eq_iff_eq.mpr rfl]
      · rw [compare_gt_iff_gt.mpr h, compare_gt_iff_gt.mpr (WithTop.coe_lt_coe.mpr h)]

/-- The fold underlying `rust_max_by`: the result is the seed (and every
list element is strictly smaller), or it is a list element of maximal key
such that every *later* element is strictly smaller. -/
theorem foldl_rmax_spec {α β : Type} [LinearOrder β] (key : α → β) :
    ∀ (l : List α) (a : α),
      (l.foldl (fun acc y => if compare (key acc) (key y) = .gt then acc else y) a = a ∧
        ∀ j y, l.get? j = some y → key y < key a) ∨
      (∃ i z, l.get? i = some z ∧
        l.foldl (fun acc y => if compare (key acc) (key y) = .gt then acc else y) a = z ∧
        key a ≤ key z ∧ (∀ j y, l.get? j = some y → key y ≤ key z) ∧
        (∀ j y, l.get? j = some y → i < j → key y < key z)) := by
  intro l
  induction l with
  | nil => intro a; left; exact ⟨rfl, fun j y h => by simp at h⟩
  | cons x xs ih =>
    intro a
    by_cases hc : compare (key a) (key x) = .gt
    · have hxa : key x < key a := compare_gt_iff_gt.mp hc
      have hstep : (x :: xs).foldl
          (fun acc y => if compare (key acc) (key y) = .gt then acc else y) a
          = xs.foldl (fun acc y => if compare (key acc) (key y) = .gt then acc else y) a := by
        simp [List.foldl_cons, hc]
      rcases ih a with ⟨he, hall⟩ | ⟨i, z, hget, he, hle, hall, hlater⟩
      · left
        refine ⟨hstep.trans he, ?_⟩
        intro j y hj
        cases j with
        | zero => cases hj; exact hxa
        | succ j' => exact hall j' y hj
      · right
        refine ⟨i + 1, z, hget, hstep.trans he, hle, ?_, ?_⟩
        · intro j y hj
          cases j with
          | zero => cases hj; exact le_of_lt (lt_of_lt_of_le hxa hle)
          | succ j' => exact hall j' y hj
        · intro j y hj hij
          cases j with
          | zero => omega
          | succ j' => exact hlater j' y hj (by omega)
    · have hax : key a ≤ key x := not_lt.mp (fun hh => hc (compare_gt_iff_gt.mpr hh))
      have hstep : (x :: xs).foldl
          (fun acc y => if compare (key acc) (key y) = .gt then acc else y) a
          = xs.foldl (fun acc y => if compare (key acc) (key y) = .gt then acc else y) x := by
        simp [List.foldl_cons, hc]
      rcases ih x with ⟨he, hall⟩ | ⟨i, z, hget, he, hle, hall, hlater⟩
      · right
        refine ⟨0, x, rfl, hstep.trans he, hax, ?_, ?_⟩
        · intro j y hj
          cases j with
          | zero => cases hj; exact le_rfl
          | succ j' => exact le_of_lt (hall j' y hj)
        · intro j y hj hij
          cases j with
          | zero => omega
          | succ j' => exact hall j' y hj
      · right
        refine ⟨i + 1, z, hget, hstep.trans he, le_trans hax hle, ?_, ?_⟩
        · intro j y hj
          cases j with
          | zero => cases hj; exact hle
          | succ j' => exact hall j' y hj
        · intro j y hj hij
          cases j with
          | zero => omega
          | succ j' => exact hlater j' y hj (by omega)

/-- `rust_max_by` with a `compare`-shaped comparator returns an element of
maximal key, and the **last** element attaining the maximum. -/
theorem rust_max_by_key_spec {α β : Type} [LinearOrder β] (key : α → β) (l : List α) (x : α)
    (h : rust_max_by (fun a b => compare (key a) (key b)) l = some x) :
    ∃ i, l.get? i = some x ∧ (∀ j y, l.get? j = some y → key y ≤ key x) ∧
      (∀ j y, l.get? j = some y → i < j → key y < key x) := by
  cases l with
  | nil => exact absurd h (by simp [rust_max_by])
  | cons a xs =>
    have hx : xs.foldl (fun acc y => if compare (key acc) (key y) = .gt then acc else y) a = x := by
      simpa [rust_max_by] using h
    rcases foldl_rmax_spec key xs a with ⟨he, hall⟩ | ⟨i, z, hget, he, hle, hall, hlater⟩
    · have hxa : x = a := hx.symm.trans he
      subst hxa
      refine ⟨0, rfl, ?_, ?_⟩
      · intro j y hj
        cases j with
        | zero => cases hj; exact le_rfl
        | succ j' => exact le_of_lt (hall j' y hj)
      · intro j y hj hij
        cases j with
        | zero => omega
        | succ j' => exact hall j' y hj
    · have hxz : z = x := he.symm.trans hx
      subst hxz
      refine ⟨i + 1, hget, ?_, ?_⟩
      · intro j y hj
        cases j with
        | zero => cases hj; exact hle
        | succ j' => exact hall j' y hj
      · intro j y hj hij
        cases j with
        | zero => omega
        | succ j' => exact hlater j' y hj (by omega)

/-- C5 amended: the UCT argmax step of selection returns (the index of)
a child stat of maximal UCT priority such that every **later** child stat
has strictly smaller priority — i.e. ties among equal maximal priorities
resolve to the *last* such child in the children list, not the first. -/
theorem C5_uct_tie_resolves_last {Mv : Type} (sqrt_ln : ℕ → ℕ → ℚ) (c : ℚ) (t : MctsTree Mv)
    (node_children : List ℕ) (total_visits : ℕ) (i : ℕ) (u : UctVal) (m : Mv)
    (h : Mcts.select_uct_child sqrt_ln c t node_children total_visits = some (i, u, m)) :
    ∃ nd : MctsNode Mv,
      (node_children.filterMap (fun n => t.node n)).get? i = some nd ∧
      u = uct sqrt_ln nd.score nd.visits total_visits c ∧ m = nd.placement_move ∧
      (∀ j nd', (node_children.filterMap (fun n => t.node n)).get? j = some nd' →
        (uct sqrt_ln nd'.score nd'.visits total_visits c).toW ≤ u.toW) ∧
      (∀ j nd', (node_children.filterMap (fun n => t.node n)).get? j = some nd' → i < j →
        (uct sqrt_ln nd'.score nd'.visits total_visits c).toW < u.toW) := by
  simp only [Mcts.select_uct_child] at h
  have hcmp : (fun (a b : ℕ × UctVal × Mv) => UctVal.total_cmp a.2.1 b.2.1)
      = (fun (a b : ℕ × UctVal × Mv) => compare a.2.1.toW b.2.1.toW) := by
    funext a b
    exact UctVal.total_cmp_eq_compare _ _
  rw [hcmp] at h
  obtain ⟨i', hget, hle, hlt⟩ :=
    rust_max_by_key_spec (fun p : ℕ × UctVal × Mv => p.2.1.toW) _ _ h
  have hcg : ∀ j, (((node_children.filterMap (fun n => t.node n)).enum).map (fun p =>
      (p.1, uct sqrt_ln p.2.score p.2.visits total_visits c, p.2.placement_move))).get? j
      = ((node_children.filterMap (fun n => t.node n)).get? j).map (fun nd =>
        (j, uct sqrt_ln nd.score nd.visits total_visits c, nd.placement_move)) := by
    intro j
    rw [List.get?_map, List.get?_eq_getElem?, List.getElem?_enum, ← List.get?_eq_getElem?]
    cases (node_children.filterMap (fun n => t.node n)).get? j <;> rfl
  rw [hcg] at hget
  rcases Option.map_eq_some'.mp hget with ⟨nd, hnd, htriple⟩
  obtain ⟨hii, huu, hmm⟩ : i' = i ∧ uct sqrt_ln nd.score nd.visits total_visits c = u
      ∧ nd.placement_move = m := by
    injection htriple with h1 h2
    injection h2 with h2 h3
    exact ⟨h1, h2, h3⟩
  subst hii
  refine ⟨nd, hnd, huu.symm, hmm.symm, ?_, ?_⟩
  · intro j nd' hj
    have := hle j _ ((hcg j).trans (by rw [hj]; rfl))
    simpa using this
  · intro j nd' hj hij
    have := hlt j _ ((hcg j).trans (by rw [hj]; rfl)) hij
    simpa using this

/-- C3 amended: whenever `best_move` returns a move, the iteration
budget completed and the move is the `placement_move` of a root child
whose visit count is maximal among the root's direct children — and it is
the **last** child attaining that maximum, not the first; the returned
value is always read from a root child's node, never from the root's own
placeholder node. -/
theorem C3_best_move_last_max_visits {St Mv GSt Pl : Type} [DecidableEq Mv] (G : GameSpec St Mv GSt Pl)
    (player : Pl) (sqrt_ln : ℕ → ℕ → ℚ) (c : ℚ) (fuel : ℕ) (base : St)
    (t0 : MctsTree Mv) (n : ℕ) (rng : Rng) (m : Mv)
    (h : Mcts.best_move G player sqrt_ln c fuel base t0 n rng = some m) :
    ∃ r : MctsTree Mv × Rng × List (List (ℕ × MoveScore)),
      Mcts.run_trace G player sqrt_ln c fuel base n t0 rng [] = some r ∧
      ∃ ch, r.1.childrenOf 0 = some ch ∧
      ∃ i nd, (ch.filterMap (fun v => r.1.node v)).get? i = some nd ∧
        m = nd.placement_move ∧
        (∀ j nd', (ch.filterMap (fun v => r.1.node v)).get? j = some nd' →
          nd'.visits ≤ nd.visits) ∧
        (∀ j nd', (ch.filterMap (fun v => r.1.node v)).get? j = some nd' → i < j →
          nd'.visits < nd.visits) := by
  unfold Mcts.best_move at h
  rcases hrun : Mcts.run_trace G player sqrt_ln c fuel base n t0 rng [] with _ | r
  · rw [hrun] at h; exact absurd h (by simp)
  rw [hrun] at h
  obtain ⟨t1, rng1, trs1⟩ := r
  dsimp only [] at h
  refine ⟨(t1, rng1, trs1), rfl, ?_⟩
  rcases hbd : Mcts.best_descendant t1 with _ | ⟨nd, q⟩
  · rw [hbd] at h; exact absurd h (by simp)
  rw [hbd] at h
  have hm : nd.placement_move = m := by simpa using h
  unfold Mcts.best_descendant at hbd
  rcases hch : t1.childrenOf 0 with _ | ch
  · rw [hch] at hbd; exact absurd hbd (by simp)
  rw [hch] at hbd
  refine ⟨ch, rfl, ?_⟩
  dsimp only
  obtain ⟨i, hget, hle, hlt⟩ :=
    rust_max_by_key_spec (fun p : MctsNode Mv × ℚ => p.2) _ _ hbd
  have hcg : ∀ j, (((ch.filterMap (fun v => t1.node v)).map
      (fun nn => (nn, (nn.visits : ℚ)))).get? j)
      = ((ch.filterMap (fun v => t1.node v)).get? j).map (fun nn => (nn, (nn.visits : ℚ))) := by
    intro j
    rw [List.get?_map]
  rw [hcg] at hget
  rcases Option.map_eq_some'.mp hget with ⟨nd0, hnd0, hpair⟩
  obtain ⟨hnd_eq, hq⟩ : nd0 = nd ∧ (nd0.visits : ℚ) = q := by
    injection hpair with h1 h2
    exact ⟨h1, h2⟩
  subst hnd_eq
  refine ⟨i, nd0, hnd0, hm.symm, ?_, ?_⟩
  · intro j nd' hj
    have := hle j _ ((hcg j).trans (by rw [hj]; rfl))
    have hcast : (nd'.visits : ℚ) ≤ (nd0.visits : ℚ) := by rw [hq]; simpa using this
    exact_mod_cast hcast
  · intro j nd' hj hij
    have := hlt j _ ((hcg j).trans (by rw [hj]; rfl)) hij
    have hcast : (nd'.visits : ℚ) < (nd0.visits : ℚ) := by rw [hq]; simpa using this
    exact_mod_cast hcast

/-- C3 counterexample: on `gameTwo`, after the 2-iteration budget both
root children end with visit count 1 (a tie); the child listed first
(node 1) carries move 0, yet `best_move` returns move 1 — the move of
the **last** maximal child — refuting "ties resolve to the first maximal
child in the children list". -/
theorem C3_counterexample_tie_returns_last :
    Mcts.best_move gameTwo () sqrt_ln_zero 1 10 [] (MctsTree.new 99) 2 [0] = some 1 ∧
    runTwo.map (fun r =>
        (r.1.childrenOf 0,
         (r.1.node 1).map (fun n => (n.placement_move, n.visits)),
         (r.1.node 2).map (fun n => (n.placement_move, n.visits))))
      = some (some [1, 2], some (0, 1), some (1, 1)) := ⟨rfl, rfl⟩

/-- C3 witness: the amended theorem applied to the concrete `gameTwo`
run. -/
theorem C3_best_move_witness :
    ∃ r : MctsTree ℕ × Rng × List (List (ℕ × MoveScore)),
      Mcts.run_trace gameTwo () sqrt_ln_zero 1 10 [] 2 (MctsTree.new 99) [0] [] = some r ∧
      ∃ ch, r.1.childrenOf 0 = some ch ∧
      ∃ i nd, (ch.filterMap (fun v => r.1.node v)).get? i = some nd ∧
        (1 : ℕ) = nd.placement_move ∧
        (∀ j nd', (ch.filterMap (fun v => r.1.node v)).get? j = some nd' →
          nd'.visits ≤ nd.visits) ∧
        (∀ j nd', (ch.filterMap (fun v => r.1.node v)).get? j = some nd' → i < j →
          nd'.visits < nd.visits) :=
  C3_best_move_last_max_visits gameTwo () sqrt_ln_zero 1 10 [] (MctsTree.new 99) 2 [0] 1 rfl

/-- C5 counterexample: after one iteration of `gameThree` the root's
children are nodes 1, 2, 3, with nodes 2 and 3 both unvisited — both of
UCT priority `+infinity`, an exact tie — yet selection descends into
node 3, the **last** such child, refuting "ties resolve to the first
such child encountered". -/
theorem C5_counterexample_tie_descends_last :
    runThree.map (fun r =>
        ((Mcts.select gameThree () sqrt_ln_zero 1 r.1 [] r.2.1 10).map
            (fun s => s.1.map Prod.fst),
         r.1.childrenOf 0,
         (r.1.node 2).map (fun n => n.visits),
         (r.1.node 3).map (fun n => n.visits)))
      = some (some [0, 3], some [1, 2, 3], some 0, some 0) := rfl

/-- C5 witness: the amended theorem applied to a concrete one-child
selection step. -/
theorem C5_uct_witness :
    ∃ nd : MctsNode ℕ,
      (([1] : List ℕ).filterMap (fun n => treeOneChild.node n)).get? 0 = some nd ∧
      uct sqrt_ln_zero 5 3 3 1 = uct sqrt_ln_zero nd.score nd.visits 3 1 ∧
      (0 : ℕ) = nd.placement_move ∧
      (∀ j nd', (([1] : List ℕ).filterMap (fun n => treeOneChild.node n)).get? j = some nd' →
        (uct sqrt_ln_zero nd'.score nd'.visits 3 1).toW ≤ (uct sqrt_ln_zero 5 3 3 1).toW) ∧
      (∀ j nd', (([1] : List ℕ).filterMap (fun n => treeOneChild.node n)).get? j = some nd' →
        0 < j → (uct sqrt_ln_zero nd'.score nd'.visits 3 1).toW
          < (uct sqrt_ln_zero 5 3 3 1).toW) :=
  C5_uct_tie_resolves_last sqrt_ln_zero 1 treeOneChild [1] 3 0 (uct sqrt_ln_zero 5 3 3 1) 0 rfl

/-- C6 counterexample: after two scripted iterations of `gameCoin`,
node 1 has a child (node 2); in the next iteration's selection, the move
application descending into node 1 is tagged `Terminal 1`, yet the
traversal continues — two further moves are applied (reaching nodes 2
and 3) — refuting "as soon as a move application during selection
produces a Terminal tag, the iteration never applies a further move". -/
theorem C6_counterexample_descends_past_terminal :
    runCoin.map (fun r =>
        ((Mcts.select gameCoin () sqrt_ln_zero 1 r.1 0 r.2.1 10).map (fun s => s.1),
         r.1.childrenOf 1))
      = some (some [(0, MoveScore.None), (1, MoveScore.Terminal 1),
                    (2, MoveScore.NonTerminal 0), (3, MoveScore.NonTerminal 0)],
              some [2]) := rfl

/-- C6 amended: a `Terminal` tag stops the iteration exactly when the
selection loop *exits* with it (at a childless node, or at an
imperfect-information mismatch): in that case `select` returns the
loop's traversal with the tree unchanged — no expansion, no further
move — and the iteration skips the rollout, backpropagating with
contribution 0.  (A `Terminal` tag at a node that still has children
does not stop the descent, per the counterexample.) -/
theorem C6_terminal_stops_at_loop_exit {St Mv GSt Pl : Type} [DecidableEq Mv]
    (G : GameSpec St Mv GSt Pl)
    (player : Pl) (sqrt_ln : ℕ → ℕ → ℚ) (c : ℚ) (t : MctsTree Mv)
    (st : St) (rng : Rng) (fuel : ℕ)
    (tr : List (ℕ × MoveScore)) (pend : Option (List Mv)) (st1 : St) (rng1 : Rng)
    (hloop : Mcts.select_loop G player sqrt_ln c t fuel [(0, MoveScore.None)] st rng
      = some (tr, pend, st1, rng1))
    (lastid : ℕ) (lastsc : MoveScore)
    (hlast : tr.getLast? = some (lastid, lastsc))
    (hterm : lastsc.is_terminal = true) :
    Mcts.select G player sqrt_ln c t st rng fuel = some (tr, t, st1, rng1) ∧
    Mcts.iterate G player sqrt_ln c fuel st t rng
      = some (Mcts.backpropagate t tr 0, rng1, tr) := by
  have hsel : Mcts.select G player sqrt_ln c t st rng fuel = some (tr, t, st1, rng1) := by
    unfold Mcts.select
    rw [hloop]
    dsimp only
    rw [hlast]
    dsimp only
    rw [hterm]
    rfl
  refine ⟨hsel, ?_⟩
  unfold Mcts.iterate
  rw [hsel]
  dsimp only
  rw [hlast]
  dsimp only
  rw [hterm]
  rfl

/-- C6 witness: the amended theorem applied to `gameTwo` on the tree
whose unvisited second child is terminal. -/
theorem C6_terminal_witness :
    Mcts.select gameTwo () sqrt_ln_zero 1 treeTwoAfterOne [] [] 10
      = some ([(0, MoveScore.None), (2, MoveScore.Terminal 1)], treeTwoAfterOne, [1], []) ∧
    Mcts.iterate gameTwo () sqrt_ln_zero 1 10 [] treeTwoAfterOne []
      = some (Mcts.backpropagate treeTwoAfterOne
          [(0, MoveScore.None), (2, MoveScore.Terminal 1)] 0, [],
          [(0, MoveScore.None), (2, MoveScore.Terminal 1)]) :=
  C6_terminal_stops_at_loop_exit gameTwo () sqrt_ln_zero 1 treeTwoAfterOne [] [] 10
    [(0, MoveScore.None), (2, MoveScore.Terminal 1)] none [1] [] rfl
    2 (MoveScore.Terminal 1) rfl rfl

/-- C7 counterexample: after two completed iterations of the
deterministic `gameChain`, node 1 has one child (node 2) with visit
count 1, but node 1's own visit count is 2 — the parent's visits exceed
the sum of its children's visits, refuting "the node's own visit count
equals the sum of its children's visit counts". -/
theorem C7_counterexample_visits_exceed_child_sum :
    runChain.map (fun r =>
        ((r.1.node 1).map (fun n => n.visits), r.1.childrenOf 1,
         (r.1.node 2).map (fun n => n.visits)))
      = some (some 2, some [2], some 1) := rfl

namespace MctsTree

variable {Mv : Type}

theorem wf_new (d : Mv) : (MctsTree.new d).wf := by
  refine ⟨by simp [MctsTree.new], by simp [MctsTree.new], ?_, by simp [MctsTree.new]⟩
  intro p l hp c hc
  simp only [MctsTree.new] at hp
  rcases p with _ | p
  · simp at hp
    subst hp
    simp at hc
  · simp at hp

theorem add_child_cases {t t' : MctsTree Mv} {p : ℕ} {m : Mv} {id : ℕ}
    (h : t.add_child p m = some (t', id)) :
    p < t.nodes.length ∧ id = t.nodes.length ∧
    t'.nodes = t.nodes ++ [{ placement_move := m, score := 0, visits := 0 }] ∧
    t'.children = (t.children.set p (((t.children.get? p).getD []) ++ [id])) ++ [[]] := by
  unfold MctsTree.add_child at h
  split_ifs at h with hp
  · injection h with h1
    injection h1 with h1 h2
    subst h2
    exact ⟨hp, rfl, by rw [← h1], by rw [← h1]⟩

/-- Inserting one element at the end of list `p` inside a list-of-lists:
the flattening gains exactly that element, inserted in the middle. -/
theorem flatten_set_append (L : List (List ℕ)) (p : ℕ) (lp : List ℕ) (x : ℕ)
    (hp : L.get? p = some lp) :
    ∃ A B, L.flatten = A ++ B ∧ (L.set p (lp ++ [x])).flatten = A ++ x :: B := by
  induction L generalizing p with
  | nil => simp at hp
  | cons l0 rest ih =>
    cases p with
    | zero =>
      simp only [List.get?] at hp
      injection hp with hp
      subst hp
      exact ⟨l0, rest.flatten, by simp, by simp⟩
    | succ q =>
      simp only [List.get?] at hp
      obtain ⟨A, B, h1, h2⟩ := ih q hp
      exact ⟨l0 ++ A, B, by simp [h1], by simp [h2]⟩

end MctsTree

namespace MctsTree

variable {Mv : Type}

theorem add_child_spec {t t' : MctsTree Mv} {p : ℕ} {m : Mv} {id : ℕ}
    (hwf : t.wf) (h : t.add_child p m = some (t', id)) :
    t'.wf ∧ t.ExtendsFor t' ∧ (∃ l', t'.children.get? p = some l' ∧ id ∈ l') ∧
    t'.nodes.length = t.nodes.length + 1 ∧ id = t.nodes.length := by
  obtain ⟨hp, hid, hnodes, hch⟩ := add_child_cases h
  obtain ⟨hpos, hlen, hbnd, hnd⟩ := hwf
  have hplen : p < t.children.length := hlen ▸ hp
  obtain ⟨lp, hlp⟩ : ∃ lp, t.children.get? p = some lp :=
    ⟨_, List.get?_eq_get hplen⟩
  have hgetD : (t.children.get? p).getD [] = lp := by rw [hlp]; rfl
  have hsetlen : (t.children.set p (((t.children.get? p).getD []) ++ [id])).length
      = t.children.length := List.length_set ..
  have hlen' : t'.nodes.length = t.nodes.length + 1 := by
    rw [hnodes, List.length_append, List.length_cons, List.length_nil]
  have hclen' : t'.children.length = t.children.length + 1 := by
    rw [hch, List.length_append, hsetlen, List.length_cons, List.length_nil]
  -- children lookups in t'
  have c_get_lt : ∀ q, q < t.children.length →
      t'.children.get? q = if q = p then some (lp ++ [id]) else t.children.get? q := by
    intro q hq
    rw [hch, List.get?_append (by rwa [hsetlen])]
    by_cases hqp : q = p
    · subst hqp
      rw [if_pos rfl, List.get?_set_eq_of_lt _ hq, hgetD]
    · rw [if_neg hqp, List.get?_set_ne _ _ (fun hh => hqp hh.symm)]
  have c_get_new : t'.children.get? t.children.length = some [] := by
    rw [hch, List.get?_append_right (le_of_eq hsetlen), hsetlen, Nat.sub_self]
    rfl
  have c_get_oob : ∀ q, t.children.length + 1 ≤ q → t'.children.get? q = none := by
    intro q hq
    rw [List.get?_eq_none]
    omega
  -- node lookups in t'
  have n_get_lt : ∀ v, v < t.nodes.length → t'.nodes.get? v = t.nodes.get? v := by
    intro v hv
    rw [hnodes, List.get?_append hv]
  have n_get_new : t'.nodes.get? t.nodes.length
      = some { placement_move := m, score := 0, visits := 0 } := by
    rw [hnodes, List.get?_append_right le_rfl, Nat.sub_self]
    rfl
  have visits_lt : ∀ v, v < t.nodes.length → t'.visitsOf v = t.visitsOf v := by
    intro v hv
    unfold visitsOf
    rw [n_get_lt v hv]
  have visits_ge : ∀ v, t.nodes.length ≤ v → t'.visitsOf v = 0 := by
    intro v hv
    unfold visitsOf
    rcases eq_or_lt_of_le hv with hv' | hv'
    · rw [← hv', n_get_new]
      rfl
    · rw [List.get?_eq_none.mpr (by omega)]
      rfl
  -- child list membership bound in the old tree
  have old_bound : ∀ c, c ∈ t.children.flatten → c < t.nodes.length := by
    intro c hc
    rw [List.mem_flatten] at hc
    obtain ⟨l, hl, hcl⟩ := hc
    obtain ⟨q, hq⟩ := List.get?_of_mem hl
    exact (hbnd q l hq c hcl).1
  -- flatten of the new children
  obtain ⟨A, B, hAB, hAB'⟩ := flatten_set_append t.children p lp id hlp
  have hflat' : t'.children.flatten = A ++ id :: B := by
    rw [hch, List.flatten_append, hgetD]
    simpa using hAB'
  have hid_not : id ∉ A ++ B := by
    intro hmem
    have := old_bound id (by rw [hAB]; exact hmem)
    omega
  -- wf of t'
  have hwf' : t'.wf := by
    refine ⟨by omega, by omega, ?_, ?_⟩
    · intro q l hq c hc
      rcases lt_trichotomy q t.children.length with hqlt | hqeq | hqgt
      · rw [c_get_lt q hqlt] at hq
        by_cases hqp : q = p
        · rw [if_pos hqp] at hq
          injection hq with hq
          subst hq
          rcases List.mem_append.mp hc with hcl | hcid
          · have := hbnd p lp hlp c hcl
            omega
          · simp only [List.mem_singleton] at hcid
            subst hcid
            subst hqp
            omega
        · rw [if_neg hqp] at hq
          have := hbnd q l hq c hc
          omega
      · subst hqeq
        rw [c_get_new] at hq
        injection hq with hq
        subst hq
        simp at hc
      · rw [c_get_oob q (by omega)] at hq
        exact absurd hq (by simp)
    · rw [hflat']
      rw [List.nodup_middle]
      exact List.nodup_cons.mpr ⟨hid_not, by rwa [← hAB]⟩
  -- ExtendsFor
  have hchild_lt : ∀ v, v < t.nodes.length → t'.childVisitSum v = t.childVisitSum v := by
    intro v hv
    have hvc : v < t.children.length := by omega
    unfold childVisitSum
    rw [c_get_lt v hvc]
    by_cases hvp : v = p
    · rw [if_pos hvp, hvp, hlp]
      simp only [Option.getD_some, List.map_append, List.sum_append, List.map_cons,
        List.map_nil, List.sum_cons, List.sum_nil]
      rw [visits_ge id (le_of_eq hid.symm)]
      have : ∀ c ∈ lp, t'.visitsOf c = t.visitsOf c := by
        intro c hc
        exact visits_lt c (hbnd p lp hlp c hc).1
      rw [List.map_congr_left this]
      simp
    · rw [if_neg hvp]
      cases hv' : t.children.get? v with
      | none => rfl
      | some l =>
        simp only [Option.getD_some]
        have : ∀ c ∈ l, t'.visitsOf c = t.visitsOf c := by
          intro c hc
          exact visits_lt c (hbnd v l hv' c hc).1
        rw [List.map_congr_left this]
  have hchild_ge : ∀ v, t.nodes.length ≤ v → t'.childVisitSum v = 0 := by
    intro v hv
    unfold childVisitSum
    rcases eq_or_lt_of_le hv with hv' | hv'
    · rw [← hv', hlen, c_get_new]
      rfl
    · rw [c_get_oob v (by omega)]
      rfl
  refine ⟨hwf', ⟨by omega, n_get_lt, visits_ge, hchild_lt, hchild_ge, ?_⟩, ?_, hlen', hid⟩
  · intro q l hq
    have hqlen : q < t.children.length := by
      by_contra hh
      rw [List.get?_eq_none.mpr (by omega)] at hq
      exact absurd hq (by simp)
    rw [c_get_lt q hqlen]
    by_cases hqp : q = p
    · subst hqp
      rw [hlp] at hq
      injection hq with hq
      refine ⟨lp ++ [id], by rw [if_pos rfl], fun c hc => List.mem_append_left _ ?_⟩
      rwa [hq]
    · exact ⟨l, by rw [if_neg hqp]; exact hq, fun c hc => hc⟩
  · refine ⟨lp ++ [id], ?_, by simp⟩
    rw [c_get_lt p hplen, if_pos rfl]

end MctsTree

namespace MctsTree

variable {Mv : Type}

theorem visitsOf_oob {t : MctsTree Mv} {v : ℕ} (h : t.nodes.length ≤ v) : t.visitsOf v = 0 := by
  unfold visitsOf
  rw [List.get?_eq_none.mpr h]
  rfl

theorem ExtendsFor.refl {t : MctsTree Mv} (hwf : t.wf) : t.ExtendsFor t := by
  obtain ⟨hpos, hlen, hbnd, hnd⟩ := hwf
  refine ⟨le_rfl, fun v _ => rfl, fun v hv => visitsOf_oob hv, fun v _ => rfl, ?_,
    fun q l hq => ⟨l, hq, fun c hc => hc⟩⟩
  intro v hv
  unfold childVisitSum
  rw [List.get?_eq_none.mpr (by omega)]
  rfl

theorem ExtendsFor.trans {t t' t'' : MctsTree Mv}
    (h1 : t.ExtendsFor t') (h2 : t'.ExtendsFor t'') : t.ExtendsFor t'' := by
  obtain ⟨e1, n1, v1, c1, z1, g1⟩ := h1
  obtain ⟨e2, n2, v2, c2, z2, g2⟩ := h2
  refine ⟨le_trans e1 e2, ?_, ?_, ?_, ?_, ?_⟩
  · intro v hv
    rw [n2 v (by omega), n1 v hv]
  · intro v hv
    rcases lt_or_le v t'.nodes.length with hv' | hv'
    · have : t''.visitsOf v = t'.visitsOf v := by
        unfold visitsOf
        rw [n2 v hv']
      rw [this]
      exact v1 v hv
    · exact v2 v hv'
  · intro v hv
    rw [c2 v (by omega), c1 v hv]
  · intro v hv
    rcases lt_or_le v t'.nodes.length with hv' | hv'
    · rw [c2 v hv']
      exact z1 v hv
    · exact z2 v hv'
  · intro q l hq
    obtain ⟨l', hl', hsub'⟩ := g1 q l hq
    obtain ⟨l'', hl'', hsub''⟩ := g2 q l' hl'
    exact ⟨l'', hl'', fun c hc => hsub'' c (hsub' c hc)⟩

end MctsTree

namespace Mcts

variable {St Mv GSt Pl : Type} [DecidableEq Mv]

/-- The normal expansion fold only appends fresh children. -/
theorem expand_fold_spec {t : MctsTree Mv} (sel : ℕ) (hwf : t.wf) (ms : List Mv) :
    (ms.foldl (fun tt m =>
      match tt.add_child sel m with
      | some (t', _) => t'
      | none => tt) t).wf ∧
    t.ExtendsFor (ms.foldl (fun tt m =>
      match tt.add_child sel m with
      | some (t', _) => t'
      | none => tt) t) := by
  induction ms generalizing t with
  | nil => exact ⟨hwf, MctsTree.ExtendsFor.refl hwf⟩
  | cons m rest ih =>
    simp only [List.foldl_cons]
    cases hac : t.add_child sel m with
    | none => exact ih hwf
    | some r =>
      obtain ⟨t', id⟩ := r
      obtain ⟨hwf', hext', _, _, _⟩ := MctsTree.add_child_spec hwf hac
      obtain ⟨hwf1, hext1⟩ := ih hwf'
      exact ⟨hwf1, hext'.trans hext1⟩

/-- The diff-expansion fold appends fresh children and every collected id
is (or becomes) a child of `sel`. -/
theorem diff_fold_spec {t : MctsTree Mv} (sel : ℕ) (hwf : t.wf) (ms : List Mv) (acc0 : List ℕ) :
    (ms.foldl (fun (acc : MctsTree Mv × List ℕ) m =>
      match acc.1.add_child sel m with
      | some (t', id) => (t', acc.2 ++ [id])
      | none => acc) (t, acc0)).1.wf ∧
    t.ExtendsFor (ms.foldl (fun (acc : MctsTree Mv × List ℕ) m =>
      match acc.1.add_child sel m with
      | some (t', id) => (t', acc.2 ++ [id])
      | none => acc) (t, acc0)).1 ∧
    (∀ id ∈ (ms.foldl (fun (acc : MctsTree Mv × List ℕ) m =>
      match acc.1.add_child sel m with
      | some (t', id) => (t', acc.2 ++ [id])
      | none => acc) (t, acc0)).2, id ∈ acc0 ∨
        ∃ l, (ms.foldl (fun (acc : MctsTree Mv × List ℕ) m =>
          match acc.1.add_child sel m with
          | some (t', id) => (t', acc.2 ++ [id])
          | none => acc) (t, acc0)).1.children.get? sel = some l ∧ id ∈ l) := by
  induction ms generalizing t acc0 with
  | nil =>
    exact ⟨hwf, MctsTree.ExtendsFor.refl hwf, fun id hid => Or.inl hid⟩
  | cons m rest ih =>
    simp only [List.foldl_cons]
    cases hac : t.add_child sel m with
    | none => exact ih hwf acc0
    | some r =>
      obtain ⟨t', id⟩ := r
      obtain ⟨hwf', hext', ⟨lsel, hlsel, hidsel⟩, _, _⟩ := MctsTree.add_child_spec hwf hac
      obtain ⟨hwf1, hext1, hmem1⟩ := ih hwf' (acc0 ++ [id])
      refine ⟨hwf1, hext'.trans hext1, ?_⟩
      intro j hj
      rcases hmem1 j hj with hj0 | hj1
      · rcases List.mem_append.mp hj0 with hj00 | hj01
        · exact Or.inl hj00
        · simp only [List.mem_singleton] at hj01
          subst hj01
          obtain ⟨_, _, _, _, _, hgrow⟩ := hext1
          obtain ⟨l', hl', hsub⟩ := hgrow sel lsel hlsel
          exact Or.inr ⟨l', hl', hsub j hidsel⟩
      · exact Or.inr hj1

theorem Rng.choose_mem {α : Type} {l : List α} {r r' : Rng} {x : α}
    (h : Rng.choose l r = (some x, r')) : x ∈ l := by
  unfold Rng.choose at h
  split_ifs at h with hl
  · injection h with h1
    exact absurd h1 (by simp)
  · injection h with h1
    exact List.get?_mem h1


theorem select_loop_chain {St Mv GSt Pl : Type} [DecidableEq Mv] (G : GameSpec St Mv GSt Pl)
    (player : Pl) (sqrt_ln : ℕ → ℕ → ℚ) (c : ℚ) (t : MctsTree Mv) :
    ∀ (fuel : ℕ) (tr0 : List (ℕ × MoveScore)) (st : St) (rng : Rng)
      (out : List (ℕ × MoveScore) × Option (List Mv) × St × Rng),
      select_loop G player sqrt_ln c t fuel tr0 st rng = some out →
      List.Chain' (childEdge t) tr0 → tr0 ≠ [] →
      List.Chain' (childEdge t) out.1 ∧ out.1.head? = tr0.head? ∧ out.1 ≠ [] := by
  intro fuel
  induction fuel with
  | zero =>
    intro tr0 st rng out h
    simp [select_loop] at h
  | succ f ih =>
    intro tr0 st rng out h hch hne
    simp only [select_loop] at h
    cases hl : tr0.getLast? with
    | none => rw [hl] at h; exact absurd h (by simp)
    | some lastp =>
      obtain ⟨last_id, last_sc⟩ := lastp
      rw [hl] at h
      dsimp only at h
      cases hch2 : t.childrenOf last_id with
      | none => rw [hch2] at h; exact absurd h (by simp)
      | some node_children =>
        rw [hch2] at h
        dsimp only at h
        by_cases hempty : node_children.length = 0
        · rw [if_pos hempty] at h
          injection h with h
          subst h
          exact ⟨hch, rfl, hne⟩
        · rw [if_neg hempty] at h
          cases hdiff : (if G.is_perfect_information then none
              else diff_existing_children t node_children (G.possible_moves st)) with
          | some diff =>
            rw [hdiff] at h
            dsimp only at h
            injection h with h
            subst h
            exact ⟨hch, rfl, hne⟩
          | none =>
            rw [hdiff] at h
            dsimp only at h
            cases hnode : t.node last_id with
            | none => rw [hnode] at h; exact absurd h (by simp)
            | some last_node =>
              rw [hnode] at h
              dsimp only at h
              cases hsel : select_uct_child sqrt_ln c t node_children last_node.visits with
              | none => rw [hsel] at h; exact absurd h (by simp)
              | some trip =>
                obtain ⟨i, u, m⟩ := trip
                rw [hsel] at h
                dsimp only at h
                cases hgi : node_children.get? i with
                | none => rw [hgi] at h; exact absurd h (by simp)
                | some sel_id =>
                  rw [hgi] at h
                  dsimp only at h
                  cases hpm : (G.place_move st m rng).1 with
                  | none => rw [hpm] at h; exact absurd h (by simp)
                  | some sg =>
                    obtain ⟨st', gs⟩ := sg
                    rw [hpm] at h
                    dsimp only at h
                    have hch' : List.Chain' (childEdge t)
                        (tr0 ++ [(sel_id, G.score_state st' gs player)]) := by
                      rw [List.chain'_append]
                      refine ⟨hch, List.chain'_singleton _, ?_⟩
                      intro x hx y hy
                      simp only [List.head?_cons, Option.mem_def, Option.some.injEq] at hy
                      subst hy
                      rw [hl] at hx
                      simp only [Option.mem_def, Option.some.injEq] at hx
                      subst hx
                      exact ⟨node_children, hch2, List.get?_mem hgi⟩
                    obtain ⟨h1, h2, h3⟩ := ih _ _ _ _ h hch' (by simp)
                    refine ⟨h1, ?_, h3⟩
                    rw [h2]
                    cases tr0 with
                    | nil => exact absurd rfl hne
                    | cons a rest => simp

theorem choose_fst_mem {α : Type} {l : List α} {r : Rng} {x : α}
    (h : (Rng.choose l r).1 = some x) : x ∈ l := by
  simp only [Rng.choose, Rng.next] at h
  by_cases hl : l.length = 0
  · rw [if_pos hl] at h
    exact absurd h (by simp)
  · rw [if_neg hl] at h
    exact List.get?_mem h

theorem childEdge_mono {Mv : Type} {t t' : MctsTree Mv} (hext : t.ExtendsFor t')
    {a b : ℕ × MoveScore} (h : childEdge t a b) : childEdge t' a b := by
  obtain ⟨l, hl, hb⟩ := h
  obtain ⟨l', hl', hsub⟩ := hext.2.2.2.2.2 a.1 l hl
  exact ⟨l', hl', hsub _ hb⟩

theorem expand_spec {St Mv GSt Pl : Type} [DecidableEq Mv] {G : GameSpec St Mv GSt Pl}
    {t : MctsTree Mv} {sel : ℕ} {pend : Option (List Mv)} {st : St} {rng : Rng}
    {t1 : MctsTree Mv} {next_id : ℕ} {rng1 : Rng}
    (hwf : t.wf) (h : expand G t sel pend st rng = some (t1, next_id, rng1)) :
    t1.wf ∧ t.ExtendsFor t1 ∧ ∃ l, t1.children.get? sel = some l ∧ next_id ∈ l := by
  unfold expand at h
  cases pend with
  | some diff =>
    dsimp only at h
    obtain ⟨hwf1, hext1, hmem1⟩ := diff_fold_spec sel hwf diff []
    cases hcho : (Rng.choose (diff.foldl (fun (acc : MctsTree Mv × List ℕ) m =>
        match acc.1.add_child sel m with
        | some (t', id) => (t', acc.2 ++ [id])
        | none => acc) (t, [])).2 rng).1 with
    | none => rw [hcho] at h; exact absurd h (by simp)
    | some nid =>
      rw [hcho] at h
      dsimp only at h
      injection h with h
      injection h with h1 h2
      injection h2 with h2 h3
      subst h1
      subst h2
      rcases hmem1 nid (choose_fst_mem hcho) with habs | hok
      · exact absurd habs (by simp)
      · exact ⟨hwf1, hext1, hok⟩
  | none =>
    dsimp only at h
    obtain ⟨hwf1, hext1⟩ := expand_fold_spec sel hwf (G.possible_moves st)
    cases hchl : ((G.possible_moves st).foldl (fun tt m =>
        match tt.add_child sel m with
        | some (t', _) => t'
        | none => tt) t).childrenOf sel with
    | none => rw [hchl] at h; exact absurd h (by simp)
    | some chl =>
      rw [hchl] at h
      dsimp only at h
      cases hcho : (Rng.choose chl rng).1 with
      | none => rw [hcho] at h; exact absurd h (by simp)
      | some nid =>
        rw [hcho] at h
        dsimp only at h
        injection h with h
        injection h with h1 h2
        injection h2 with h2 h3
        subst h1
        subst h2
        exact ⟨hwf1, hext1, chl, hchl, choose_fst_mem hcho⟩

theorem select_spec {St Mv GSt Pl : Type} [DecidableEq Mv] {G : GameSpec St Mv GSt Pl}
    {player : Pl} {sqrt_ln : ℕ → ℕ → ℚ} {c : ℚ} {t : MctsTree Mv}
    {st : St} {rng : Rng} {fuel : ℕ}
    {tr : List (ℕ × MoveScore)} {t1 : MctsTree Mv} {st1 : St} {rng1 : Rng}
    (hwf : t.wf)
    (h : select G player sqrt_ln c t st rng fuel = some (tr, t1, st1, rng1)) :
    t1.wf ∧ t.ExtendsFor t1 ∧ tr ≠ [] ∧ tr.head? = some (0, MoveScore.None) ∧
    List.Chain' (childEdge t1) tr := by
  unfold select at h
  cases hloop : select_loop G player sqrt_ln c t fuel [(0, MoveScore.None)] st rng with
  | none => rw [hloop] at h; exact absurd h (by simp)
  | some out =>
    obtain ⟨trL, pend, stL, rngL⟩ := out
    rw [hloop] at h
    dsimp only at h
    obtain ⟨hchain0, hhead0, hne0⟩ :=
      select_loop_chain G player sqrt_ln c t fuel [(0, MoveScore.None)] st rng _ hloop
        (List.chain'_singleton _) (by simp)
    have hchain : List.Chain' (childEdge t) trL := hchain0
    have hne : trL ≠ [] := hne0
    have hhead : trL.head? = some (0, MoveScore.None) := by simpa using hhead0
    cases hlast : trL.getLast? with
    | none => rw [hlast] at h; exact absurd h (by simp)
    | some lastp =>
      obtain ⟨selected_node, last_score⟩ := lastp
      rw [hlast] at h
      dsimp only at h
      by_cases hterm : last_score.is_terminal
      · rw [if_pos hterm] at h
        injection h with h
        injection h with h1 h2
        injection h2 with h2 h3
        injection h3 with h3 h4
        subst h1
        subst h2
        exact ⟨hwf, MctsTree.ExtendsFor.refl hwf, hne, hhead, hchain⟩
      · rw [if_neg hterm] at h
        cases hexp : expand G t selected_node pend stL rngL with
        | none => rw [hexp] at h; exact absurd h (by simp)
        | some ex =>
          obtain ⟨texp, next_id, rngE⟩ := ex
          rw [hexp] at h
          dsimp only at h
          obtain ⟨hwfE, hextE, lsel, hlsel, hmemsel⟩ := expand_spec hwf hexp
          cases hnd : texp.node next_id with
          | none => rw [hnd] at h; exact absurd h (by simp)
          | some nd =>
            rw [hnd] at h
            dsimp only at h
            cases hpm : (G.place_move stL nd.placement_move rngE).1 with
            | none => rw [hpm] at h; exact absurd h (by simp)
            | some sg =>
              obtain ⟨st2, gs⟩ := sg
              rw [hpm] at h
              dsimp only at h
              injection h with h
              injection h with h1 h2
              injection h2 with h2 h3
              subst h1
              subst h2
              refine ⟨hwfE, hextE, by simp, ?_, ?_⟩
              · rw [← hhead]
                cases trL with
                | nil => exact absurd rfl hne
                | cons a rest => simp
              · rw [List.chain'_append]
                refine ⟨hchain.imp (fun a b => childEdge_mono hextE), List.chain'_singleton _, ?_⟩
                intro x hx y hy
                simp only [List.head?_cons, Option.mem_def, Option.some.injEq] at hy
                subst hy
                rw [hlast] at hx
                simp only [Option.mem_def, Option.some.injEq] at hx
                subst hx
                exact ⟨lsel, hlsel, hmemsel⟩

end Mcts

section PathLemmas

variable {α : Type}

theorem chain'_get?_rel {R : α → α → Prop} {l : List α} (h : List.Chain' R l) :
    ∀ k a b, l.get? k = some a → l.get? (k + 1) = some b → R a b := by
  intro k a b ha hb
  have hk1 : k + 1 < l.length := (List.get?_eq_some.mp hb).1
  have hk : k < l.length - 1 := by omega
  have := List.chain'_iff_get.mp h k hk
  obtain ⟨hka, hga⟩ := List.get?_eq_some.mp ha
  obtain ⟨hkb, hgb⟩ := List.get?_eq_some.mp hb
  rw [← hga, ← hgb]
  exact this

theorem chain'_mem_pred {R : α → α → Prop} {l : List α} {h0 : α}
    (h : List.Chain' R l) (hhead : l.head? = some h0) {x : α} (hx : x ∈ l) (hne : x ≠ h0) :
    ∃ k a, l.get? k = some a ∧ l.get? (k + 1) = some x ∧ R a x := by
  obtain ⟨j, hj⟩ := List.get?_of_mem hx
  cases j with
  | zero =>
    rw [List.get?_zero, hhead] at hj
    injection hj with hj
    exact absurd hj.symm hne
  | succ k =>
    have hk1 : k + 1 < l.length := (List.get?_eq_some.mp hj).1
    have hk : k < l.length := by omega
    refine ⟨k, l.get ⟨k, hk⟩, List.get?_eq_get hk, hj, ?_⟩
    exact chain'_get?_rel h k _ x (List.get?_eq_get hk) hj

theorem nodup_get?_unique {l : List α} (hnd : l.Nodup) {i j : ℕ} {x : α}
    (hi : l.get? i = some x) (hj : l.get? j = some x) : i = j := by
  by_contra hne
  obtain ⟨hil, hig⟩ := List.get?_eq_some.mp hi
  obtain ⟨hjl, hjg⟩ := List.get?_eq_some.mp hj
  have hpw := List.pairwise_iff_get.mp hnd
  rcases Nat.lt_or_ge i j with hij | hij
  · exact hpw ⟨i, hil⟩ ⟨j, hjl⟩ hij (by rw [hig, hjg])
  · have : j < i := by omega
    exact hpw ⟨j, hjl⟩ ⟨i, hil⟩ this (by rw [hig, hjg])

theorem countP_eq_one_of_unique {l : List α} (hnd : l.Nodup) (p : α → Bool) (w : α)
    (hw : w ∈ l) (hp : ∀ c ∈ l, p c = true ↔ c = w) : l.countP p = 1 := by
  induction l with
  | nil => simp at hw
  | cons a rest ih =>
    rw [List.nodup_cons] at hnd
    rcases List.mem_cons.mp hw with hwa | hwr
    · subst hwa
      rw [List.countP_cons, if_pos ((hp w (by simp)).mpr rfl)]
      have : rest.countP p = 0 := by
        rw [List.countP_eq_zero]
        intro c hc hpc
        have := (hp c (List.mem_cons_of_mem _ hc)).mp hpc
        subst this
        exact hnd.1 hc
      omega
    · have hpa : ¬ p a = true := by
        intro hpa
        have := (hp a (by simp)).mp hpa
        subst this
        exact hnd.1 hwr
      rw [List.countP_cons, if_neg hpa]
      have := ih hnd.2 hwr (fun c hc => hp c (List.mem_cons_of_mem _ hc))
      omega

end PathLemmas

namespace MctsTree

variable {Mv : Type}

theorem unique_parent {t : MctsTree Mv} (hwf : t.wf) {p q : ℕ} {lp lq : List ℕ} {c : ℕ}
    (hp : t.children.get? p = some lp) (hq : t.children.get? q = some lq)
    (hcp : c ∈ lp) (hcq : c ∈ lq) : p = q := by
  by_contra hne
  obtain ⟨_, _, _, hnd⟩ := hwf
  have hdisj := (List.nodup_flatten.mp hnd).2
  have hpw := List.pairwise_iff_get.mp hdisj
  obtain ⟨hpl, hpg⟩ := List.get?_eq_some.mp hp
  obtain ⟨hql, hqg⟩ := List.get?_eq_some.mp hq
  rcases Nat.lt_or_ge p q with hpq | hpq
  · have := hpw ⟨p, hpl⟩ ⟨q, hql⟩ hpq
    rw [hpg, hqg] at this
    exact this hcp hcq
  · have hqp : q < p := by omega
    have := hpw ⟨q, hql⟩ ⟨p, hpl⟩ hqp
    rw [hpg, hqg] at this
    exact this hcq hcp

theorem child_list_nodup {t : MctsTree Mv} (hwf : t.wf) {v : ℕ} {l : List ℕ}
    (hl : t.children.get? v = some l) : l.Nodup :=
  (List.nodup_flatten.mp hwf.2.2.2).1 l (List.get?_mem hl)

end MctsTree

namespace MctsTree

variable {Mv : Type}

/-- On a root path, the node ids strictly increase, hence are distinct. -/
theorem path_ids_nodup {t : MctsTree Mv} (hwf : t.wf) {ids : List ℕ}
    (hch : List.Chain' (fun a b => ∃ l, t.children.get? a = some l ∧ b ∈ l) ids) :
    ids.Nodup := by
  have hlt : List.Chain' (· < ·) ids := by
    refine hch.imp ?_
    intro a b hab
    obtain ⟨l, hl, hb⟩ := hab
    exact (hwf.2.2.1 a l hl b hb).2
  have : List.Pairwise (· < ·) ids := List.chain'_iff_pairwise.mp hlt
  exact this.imp Nat.ne_of_lt

/-- Every id on a root path is in range. -/
theorem path_ids_valid {t : MctsTree Mv} (hwf : t.wf) {ids : List ℕ}
    (hch : List.Chain' (fun a b => ∃ l, t.children.get? a = some l ∧ b ∈ l) ids)
    (hhead : ids.head? = some 0) :
    ∀ x ∈ ids, x < t.nodes.length := by
  intro x hx
  by_cases hx0 : x = 0
  · subst hx0
    exact hwf.1
  · obtain ⟨k, a, _, _, l, hl, hxl⟩ := chain'_mem_pred hch hhead hx hx0
    exact (hwf.2.2.1 a l hl x hxl).1

/-- The central counting lemma: on a root path, the number of children of
`v` that lie on the path is 1 when `v` is on the path and not its last
element, and 0 otherwise. -/
theorem path_child_countP {t : MctsTree Mv} (hwf : t.wf) {ids : List ℕ}
    (hch : List.Chain' (fun a b => ∃ l, t.children.get? a = some l ∧ b ∈ l) ids)
    (hhead : ids.head? = some 0)
    (v : ℕ) (l : List ℕ) (hl : t.children.get? v = some l) :
    l.countP (fun c => decide (c ∈ ids))
      = if v ∈ ids ∧ ids.getLast? ≠ some v then 1 else 0 := by
  have hnd : ids.Nodup := path_ids_nodup hwf hch
  have hlnd : l.Nodup := child_list_nodup hwf hl
  -- a member of both l and ids determines v's position and successor
  have key : ∀ c ∈ l, c ∈ ids →
      ∃ k, ids.get? k = some v ∧ ids.get? (k + 1) = some c := by
    intro c hcl hcid
    have hc0 : c ≠ 0 := by
      intro hc0
      subst hc0
      have := (hwf.2.2.1 v l hl 0 hcl).2
      omega
    obtain ⟨k, a, hka, hkc, la, hla, hcla⟩ := chain'_mem_pred hch hhead hcid hc0
    have hav : a = v := unique_parent hwf hla hl hcla hcl
    subst hav
    exact ⟨k, hka, hkc⟩
  by_cases hv : v ∈ ids ∧ ids.getLast? ≠ some v
  · rw [if_pos hv]
    obtain ⟨hvid, hvlast⟩ := hv
    obtain ⟨k, hk⟩ := List.get?_of_mem hvid
    have hklen : k < ids.length := (List.get?_eq_some.mp hk).1
    -- v is not the last element, so position k+1 exists
    have hk1 : k + 1 < ids.length := by
      rcases Nat.lt_or_ge (k + 1) ids.length with hh | hh
      · exact hh
      · exfalso
        have hkeq : k = ids.length - 1 := by omega
        have hne : ids ≠ [] := by
          intro hnil
          rw [hnil] at hk
          simp at hk
        rw [List.getLast?_eq_get?] at hvlast
        rw [← hkeq] at hvlast
        exact hvlast hk
    obtain ⟨w, hw⟩ : ∃ w, ids.get? (k + 1) = some w :=
      ⟨ids.get ⟨k + 1, hk1⟩, List.get?_eq_get hk1⟩
    have hedge := chain'_get?_rel hch k v w hk hw
    obtain ⟨lv, hlv, hwlv⟩ := hedge
    have hlveq : lv = l := by
      rw [hl] at hlv
      injection hlv with hh
      exact hh.symm
    subst hlveq
    refine countP_eq_one_of_unique hlnd _ w hwlv ?_
    intro c hcl
    simp only [decide_eq_true_eq]
    constructor
    · intro hcid
      obtain ⟨k', hk'v, hk'c⟩ := key c hcl hcid
      have : k' = k := nodup_get?_unique hnd hk'v hk
      subst this
      rw [hw] at hk'c
      injection hk'c with hk'c
      exact hk'c.symm
    · intro hcw
      subst hcw
      exact List.get?_mem hw
  · rw [if_neg hv]
    rw [List.countP_eq_zero]
    intro c hcl hcid
    simp only [decide_eq_true_eq] at hcid
    obtain ⟨k, hkv, hkc⟩ := key c hcl hcid
    have hvid : v ∈ ids := List.get?_mem hkv
    have hk1 : k + 1 < ids.length := (List.get?_eq_some.mp hkc).1
    -- v has a successor, so it is not the last element
    have hvlast : ids.getLast? ≠ some v := by
      intro hlast
      have hne : ids ≠ [] := by
        intro hnil
        rw [hnil] at hkv
        simp at hkv
      rw [List.getLast?_eq_get?] at hlast
      have := nodup_get?_unique hnd hkv hlast
      omega
    exact hv ⟨hvid, hvlast⟩

end MctsTree


theorem list_sum_map_add {α : Type} (l : List α) (f g : α → ℕ) :
    (l.map (fun c => f c + g c)).sum = (l.map f).sum + (l.map g).sum := by
  induction l with
  | nil => rfl
  | cons x rest ih =>
    simp only [List.map_cons, List.sum_cons, ih]
    omega

theorem list_sum_map_ind {α : Type} (l : List α) (p : α → Prop) [DecidablePred p] :
    (l.map (fun c => if p c then 1 else 0)).sum = l.countP (fun c => decide (p c)) := by
  induction l with
  | nil => rfl
  | cons x rest ih =>
    simp only [List.map_cons, List.sum_cons, ih, List.countP_cons]
    by_cases hx : p x
    · simp [hx]
      omega
    · simp [hx]

namespace Mcts

theorem backprop_aux_visits {Mv : Type} (L : List (ℕ × MoveScore)) :
    ∀ (nodes : List (MctsNode Mv)) (a : ℚ) (v : ℕ),
    (L.map Prod.fst).Nodup → (∀ p ∈ L, p.1 < nodes.length) →
    (((backprop_aux nodes L a).get? v).map (fun n => n.visits)).getD 0
      = ((nodes.get? v).map (fun n => n.visits)).getD 0
        + (if v ∈ L.map Prod.fst then 1 else 0) := by
  induction L with
  | nil =>
    intro nodes a v _ _
    simp [backprop_aux]
  | cons x rest ih =>
    intro nodes a v hnd hval
    obtain ⟨id, ms⟩ := x
    have hid : id < nodes.length := hval (id, ms) (List.mem_cons_self _ _)
    obtain ⟨n, hn⟩ : ∃ n, nodes.get? id = some n :=
      ⟨nodes.get ⟨id, hid⟩, List.get?_eq_get hid⟩
    simp only [List.map_cons, List.nodup_cons] at hnd
    simp only [backprop_aux, hn]
    rw [ih _ _ v hnd.2
      (by intro p hp; rw [List.length_set]; exact hval p (List.mem_cons_of_mem _ hp))]
    by_cases hv : v = id
    · subst hv
      have hlt : v < nodes.length := hid
      rw [List.get?_set_eq_of_lt _ hlt, hn]
      have hnot : v ∉ rest.map Prod.fst := hnd.1
      simp only [List.map_cons, List.mem_cons]
      rw [if_neg hnot]
      simp
    · rw [List.get?_set_ne _ _ (fun hh => hv hh.symm)]
      simp only [List.map_cons, List.mem_cons]
      by_cases hvr : v ∈ rest.map Prod.fst
      · rw [if_pos hvr, if_pos (Or.inr hvr)]
      · rw [if_neg hvr, if_neg (by rintro (h | h); exact hv h; exact hvr h)]

theorem backpropagate_visitsOf {Mv : Type} (t : MctsTree Mv) (tr : List (ℕ × MoveScore))
    (r : ℚ) (v : ℕ) (hnd : (tr.map Prod.fst).Nodup)
    (hval : ∀ p ∈ tr, p.1 < t.nodes.length) :
    (backpropagate t tr r).visitsOf v
      = t.visitsOf v + (if v ∈ tr.map Prod.fst then 1 else 0) := by
  unfold backpropagate MctsTree.visitsOf
  have hnd' : (tr.reverse.map Prod.fst).Nodup := by
    rw [List.map_reverse]
    exact List.nodup_reverse.mpr hnd
  have hval' : ∀ p ∈ tr.reverse, p.1 < t.nodes.length := by
    intro p hp
    exact hval p (List.mem_reverse.mp hp)
  rw [backprop_aux_visits tr.reverse t.nodes r v hnd' hval']
  have hmem : v ∈ tr.reverse.map Prod.fst ↔ v ∈ tr.map Prod.fst := by
    rw [List.map_reverse, List.mem_reverse]
  by_cases hvm : v ∈ tr.map Prod.fst
  · rw [if_pos (hmem.mpr hvm), if_pos hvm]
  · rw [if_neg (fun h => hvm (hmem.mp h)), if_neg hvm]

theorem backpropagate_children {Mv : Type} (t : MctsTree Mv) (tr : List (ℕ × MoveScore))
    (r : ℚ) : (backpropagate t tr r).children = t.children := rfl

theorem backpropagate_nodes_length {Mv : Type} (t : MctsTree Mv) (tr : List (ℕ × MoveScore))
    (r : ℚ) : (backpropagate t tr r).nodes.length = t.nodes.length :=
  backprop_aux_length ..

theorem backpropagate_childVisitSum {Mv : Type} (t : MctsTree Mv) (tr : List (ℕ × MoveScore))
    (r : ℚ) (v : ℕ) (l : List ℕ) (hl : t.children.get? v = some l)
    (hnd : (tr.map Prod.fst).Nodup)
    (hval : ∀ p ∈ tr, p.1 < t.nodes.length) :
    (backpropagate t tr r).childVisitSum v
      = t.childVisitSum v + l.countP (fun c => decide (c ∈ tr.map Prod.fst)) := by
  unfold MctsTree.childVisitSum
  rw [backpropagate_children, hl]
  simp only [Option.getD_some]
  have hmap : ∀ c ∈ l, (backpropagate t tr r).visitsOf c
      = t.visitsOf c + (if c ∈ tr.map Prod.fst then 1 else 0) := by
    intro c _
    exact backpropagate_visitsOf t tr r c hnd hval
  rw [List.map_congr_left hmap, list_sum_map_add]
  congr 1
  exact list_sum_map_ind l _

theorem endsAtCount_append (trs : List (List (ℕ × MoveScore))) (tr : List (ℕ × MoveScore))
    (v : ℕ) :
    endsAtCount (trs ++ [tr]) v
      = endsAtCount trs v + (if tr.getLast?.map Prod.fst = some v then 1 else 0) := by
  unfold endsAtCount
  rw [List.countP_append]
  by_cases h : tr.getLast?.map Prod.fst = some v
  · simp [List.countP_cons, h]
  · simp [List.countP_cons, h]

end Mcts

namespace Mcts

theorem backpropagate_wf {Mv : Type} {t : MctsTree Mv} (hwf : t.wf)
    (tr : List (ℕ × MoveScore)) (r : ℚ) : (backpropagate t tr r).wf := by
  obtain ⟨h1, h2, h3, h4⟩ := hwf
  refine ⟨?_, ?_, ?_, ?_⟩
  · rw [backpropagate_nodes_length]
    exact h1
  · rw [backpropagate_nodes_length, backpropagate_children]
    exact h2
  · intro p l hl ch hc
    rw [backpropagate_children] at hl
    rw [backpropagate_nodes_length]
    exact h3 p l hl ch hc
  · rw [backpropagate_children]
    exact h4

end Mcts

theorem visitsOf_eq_of_extends {Mv : Type} {t t' : MctsTree Mv} (hext : t.ExtendsFor t')
    {v : ℕ} (hv : v < t.nodes.length) : t'.visitsOf v = t.visitsOf v := by
  unfold MctsTree.visitsOf
  rw [hext.2.1 v hv]

theorem backprop_establishes_inv {Mv : Type} {t t1 : MctsTree Mv}
    {trs : List (List (ℕ × MoveScore))} {traversal : List (ℕ × MoveScore)} (r : ℚ)
    (hwf1 : t1.wf) (hext : t.ExtendsFor t1) (hinv : EngineInv t trs)
    (hhead : traversal.head? = some (0, MoveScore.None))
    (hchain : List.Chain' (childEdge t1) traversal) :
    (Mcts.backpropagate t1 traversal r).wf ∧
      EngineInv (Mcts.backpropagate t1 traversal r) (trs ++ [traversal]) := by
  have hch' : List.Chain' (fun a b => ∃ l, t1.children.get? a = some l ∧ b ∈ l)
      (traversal.map Prod.fst) := (List.chain'_map Prod.fst).mpr hchain
  have hhead' : (traversal.map Prod.fst).head? = some 0 := by
    rw [List.head?_map, hhead]
    rfl
  have hnd : (traversal.map Prod.fst).Nodup := MctsTree.path_ids_nodup hwf1 hch'
  have hvalids : ∀ x ∈ traversal.map Prod.fst, x < t1.nodes.length :=
    MctsTree.path_ids_valid hwf1 hch' hhead'
  have hval : ∀ p ∈ traversal, p.1 < t1.nodes.length := by
    intro p hp
    exact hvalids p.1 (List.mem_map_of_mem _ hp)
  refine ⟨Mcts.backpropagate_wf hwf1 traversal r, ?_, ?_⟩
  · intro tr' htr' p hp
    rw [Mcts.backpropagate_nodes_length]
    rcases List.mem_append.mp htr' with h1 | h2
    · exact lt_of_lt_of_le (hinv.1 tr' h1 p hp) hext.1
    · have he : tr' = traversal := by simpa using h2
      subst he
      exact hval p hp
  · intro v hv
    rw [Mcts.backpropagate_nodes_length] at hv
    obtain ⟨l, hl⟩ : ∃ l, t1.children.get? v = some l := by
      refine ⟨t1.children.get ⟨v, ?_⟩, List.get?_eq_get _⟩
      rw [← hwf1.2.1]
      exact hv
    rw [Mcts.backpropagate_visitsOf t1 traversal r v hnd hval,
        Mcts.backpropagate_childVisitSum t1 traversal r v l hl hnd hval,
        Mcts.endsAtCount_append,
        MctsTree.path_child_countP hwf1 hch' hhead' v l hl]
    have hbase : t1.visitsOf v = t1.childVisitSum v + endsAtCount trs v := by
      by_cases hvt : v < t.nodes.length
      · rw [visitsOf_eq_of_extends hext hvt, hext.2.2.2.1 v hvt]
        exact hinv.2 v hvt
      · push_neg at hvt
        rw [hext.2.2.1 v hvt, hext.2.2.2.2.1 v hvt]
        have hz : endsAtCount trs v = 0 := by
          unfold endsAtCount
          rw [List.countP_eq_zero]
          intro tr' htr'
          simp only [decide_eq_true_eq]
          intro hlast
          cases hgl : tr'.getLast? with
          | none =>
            rw [hgl] at hlast
            exact absurd hlast (by simp)
          | some p =>
            rw [hgl] at hlast
            have hpm : p ∈ tr' := List.mem_of_mem_getLast? hgl
            have hrange := hinv.1 tr' htr' p hpm
            have hpv : p.1 = v := by simpa using hlast
            omega
        rw [hz]
    have hlastmap : (traversal.map Prod.fst).getLast? = traversal.getLast?.map Prod.fst :=
      List.getLast?_map _ _
    rw [hbase, ← hlastmap]
    by_cases hmem : v ∈ traversal.map Prod.fst
    · by_cases hlastv : (traversal.map Prod.fst).getLast? = some v
      · rw [if_pos hmem, if_pos hlastv, if_neg (by rintro ⟨_, hne⟩; exact hne hlastv)]
        omega
      · rw [if_pos hmem, if_neg hlastv, if_pos ⟨hmem, hlastv⟩]
        omega
    · have hlastv : ¬ (traversal.map Prod.fst).getLast? = some v := by
        intro hc
        exact hmem (List.mem_of_mem_getLast? hc)
      rw [if_neg hmem, if_neg hlastv, if_neg (by rintro ⟨hm, _⟩; exact hmem hm)]
      omega

theorem iterate_inv {St Mv GSt Pl : Type} [DecidableEq Mv] {G : GameSpec St Mv GSt Pl}
    {player : Pl} {sqrt_ln : ℕ → ℕ → ℚ} {c : ℚ} {fuel : ℕ} {base : St}
    {t t2 : MctsTree Mv} {rng rng2 : Rng} {tr : List (ℕ × MoveScore)}
    {trs : List (List (ℕ × MoveScore))}
    (hwf : t.wf) (hinv : EngineInv t trs)
    (h : Mcts.iterate G player sqrt_ln c fuel base t rng = some (t2, rng2, tr)) :
    t2.wf ∧ EngineInv t2 (trs ++ [tr]) := by
  unfold Mcts.iterate at h
  cases hsel : Mcts.select G player sqrt_ln c t base rng fuel with
  | none =>
    rw [hsel] at h
    exact absurd h (by simp)
  | some out =>
    obtain ⟨traversal, t1, st, rng1⟩ := out
    rw [hsel] at h
    dsimp only at h
    obtain ⟨hwf1, hext, hne, hhead, hchain⟩ := Mcts.select_spec hwf hsel
    cases hlast : traversal.getLast? with
    | none =>
      rw [hlast] at h
      exact absurd h (by simp)
    | some p =>
      obtain ⟨pid, psc⟩ := p
      rw [hlast] at h
      dsimp only at h
      by_cases hterm : psc.is_terminal = true
      · rw [if_pos hterm] at h
        simp only [Option.some.injEq, Prod.mk.injEq] at h
        obtain ⟨h1, h2, h3⟩ := h
        subst h1
        subst h3
        exact backprop_establishes_inv 0 hwf1 hext hinv hhead hchain
      · rw [if_neg hterm] at h
        cases hro : Mcts.rollout G player fuel st rng1 0 with
        | none =>
          rw [hro] at h
          exact absurd h (by simp)
        | some rout =>
          obtain ⟨rsc, st2, rng2'⟩ := rout
          rw [hro] at h
          dsimp only at h
          simp only [Option.some.injEq, Prod.mk.injEq] at h
          obtain ⟨h1, h2, h3⟩ := h
          subst h1
          subst h3
          exact backprop_establishes_inv rsc hwf1 hext hinv hhead hchain

theorem run_trace_inv {St Mv GSt Pl : Type} [DecidableEq Mv] {G : GameSpec St Mv GSt Pl}
    {player : Pl} {sqrt_ln : ℕ → ℕ → ℚ} {c : ℚ} {fuel : ℕ} {base : St} :
    ∀ (n : ℕ) (t : MctsTree Mv) (rng : Rng) (trs : List (List (ℕ × MoveScore)))
      {tf : MctsTree Mv} {rngf : Rng} {trsf : List (List (ℕ × MoveScore))},
    t.wf → EngineInv t trs →
    Mcts.run_trace G player sqrt_ln c fuel base n t rng trs = some (tf, rngf, trsf) →
    tf.wf ∧ EngineInv tf trsf := by
  intro n
  induction n with
  | zero =>
    intro t rng trs tf rngf trsf hwf hinv h
    simp only [Mcts.run_trace, Option.some.injEq, Prod.mk.injEq] at h
    obtain ⟨h1, h2, h3⟩ := h
    subst h1
    subst h3
    exact ⟨hwf, hinv⟩
  | succ m ih =>
    intro t rng trs tf rngf trsf hwf hinv h
    rw [Mcts.run_trace] at h
    cases hit : Mcts.iterate G player sqrt_ln c fuel base t rng with
    | none =>
      rw [hit] at h
      exact absurd h (by simp)
    | some out =>
      obtain ⟨t', rng', tr⟩ := out
      rw [hit] at h
      dsimp only at h
      obtain ⟨hwf', hinv'⟩ := iterate_inv hwf hinv hit
      exact ih t' rng' (trs ++ [tr]) hwf' hinv' h

theorem EngineInv_new {Mv : Type} (d : Mv) : EngineInv (MctsTree.new d) [] := by
  constructor
  · intro tr htr
    exact absurd htr (List.not_mem_nil tr)
  · intro v hv
    have hv1 : v < 1 := by simpa [MctsTree.new] using hv
    have hv0 : v = 0 := by omega
    subst hv0
    rfl

/-- C7 (amended): after any number of engine iterations starting from a
fresh tree, every node's visit count equals the sum of its direct
children's visit counts plus the number of completed iterations whose
recorded traversal ended at that node itself. -/
theorem C7_visits_child_sum_plus_endings {St Mv GSt Pl : Type} [DecidableEq Mv]
    (G : GameSpec St Mv GSt Pl) (player : Pl) (sqrt_ln : ℕ → ℕ → ℚ) (c : ℚ)
    (fuel : ℕ) (base : St) (n : ℕ) (d : Mv) (rng : Rng)
    (tf : MctsTree Mv) (rngf : Rng) (trsf : List (List (ℕ × MoveScore)))
    (h : Mcts.run_trace G player sqrt_ln c fuel base n (MctsTree.new d) rng []
        = some (tf, rngf, trsf))
    (v : ℕ) (hv : v < tf.nodes.length) :
    tf.visitsOf v = tf.childVisitSum v + endsAtCount trsf v :=
  (run_trace_inv n (MctsTree.new d) rng [] (MctsTree.wf_new d) (EngineInv_new d) h).2.2 v hv

theorem C7_visits_witness :
    chainOut.1.visitsOf 1 = chainOut.1.childVisitSum 1 + endsAtCount chainOut.2.2 1 :=
  C7_visits_child_sum_plus_endings gameChain () sqrt_ln_zero 1 10 0 2 99 []
    chainOut.1 chainOut.2.1 chainOut.2.2 (by rfl) 1 (by decide)
